import Mathlib

/-!
Verification of the task-management integration hub (`claude_todo`).

This file gives a shallow embedding of the parts of the code base that the
specification's testable properties are about:

* the domain model (`src/domain/models.py`): `Task`, `TaskId`, the status /
  priority / source enumerations, `TaskFilter`, and the derived predicates
  `is_due_today` / `is_overdue`;
* the in-memory repository and cache (`src/repositories/memory.py`), modelled
  as association lists with Python-`dict` semantics;
* the cached task service (`src/services/task_service.py`);
* the rule-based sync engine (`src/services/sync_service.py`), modelled as a
  state machine parametrised over the repositories it talks to, so that both
  the in-memory instantiation and failing repositories can be studied;
* the mention-text extraction (`src/services/mention_service.py`), with the
  regular expressions of the source spelled out as character-list scanners.

Python `datetime` values are modelled as (year, month, day, time-of-day)
tuples ordered lexicographically; `uuid.uuid4()` is modelled as an injective
fresh-name supply indexed by a counter threaded through the engine.
-/

set_option maxHeartbeats 1000000

namespace Todo

/-- Task status values (`TaskStatus` in `src/domain/models.py`). -/
inductive TaskStatus where
  | todo
  | in_progress
  | done
  | blocked
deriving DecidableEq

/-- Task priority levels (`TaskPriority` in `src/domain/models.py`). -/
inductive TaskPriority where
  | low
  | medium
  | high
  | urgent
deriving DecidableEq

/-- Source of the task (`TaskSource` in `src/domain/models.py`). -/
inductive TaskSource where
  | notion_team
  | notion_personal
  | slack_mention
  | discord_mention
  | manual
deriving DecidableEq

/-- A Python `datetime`: calendar date plus a time-of-day, compared
lexicographically (as Python compares `datetime` values field by field).
`tod` collapses hour/minute/second/microsecond into a single number. -/
structure DateTime where
  year : Nat
  month : Nat
  day : Nat
  tod : Nat
deriving DecidableEq

/-- Strict comparison of two `DateTime`s (Python `<` on `datetime`). -/
def DateTime.ltb (a b : DateTime) : Bool :=
  decide (a.year < b.year) ||
    (a.year == b.year &&
      (decide (a.month < b.month) ||
        (a.month == b.month &&
          (decide (a.day < b.day) ||
            (a.day == b.day && decide (a.tod < b.tod))))))

/-- Equality of the calendar dates of two `DateTime`s (Python `.date() ==`). -/
def DateTime.sameDate (a b : DateTime) : Bool :=
  a.year == b.year && a.month == b.month && a.day == b.day

/-- Value object for task identification (`TaskId` in
`src/domain/models.py`). -/
structure TaskId where
  value : String
deriving DecidableEq

/-- The string produced by the `n`-th call of `uuid.uuid4()`.  The real
generator returns pairwise-distinct opaque strings; we model it as an
injective supply of fresh names indexed by how many ids were generated. -/
def genId (n : Nat) : String :=
  String.mk ('u' :: 'u' :: 'i' :: 'd' :: '-' :: List.replicate n 'x')

/-- `TaskId.generate` (`uuid.uuid4()`), given the generation counter. -/
def TaskId.generate (n : Nat) : TaskId := ⟨genId n⟩

theorem genId_inj {a b : Nat} (h : genId a = genId b) : a = b := by
  have hdata : ('u' :: 'u' :: 'i' :: 'd' :: '-' :: List.replicate a 'x')
      = ('u' :: 'u' :: 'i' :: 'd' :: '-' :: List.replicate b 'x') := by
    have := congrArg String.data h
    simpa [genId] using this
  have hrep : List.replicate a 'x' = List.replicate b 'x' := by
    simpa using hdata
  have := congrArg List.length hrep
  simpa using this

/-- Free-form key/value metadata map (Python `dict`); the sync engine only
ever stores and reads string values in it. -/
abbrev Metadata := List (String × String)

/-- First-match lookup in an association list (Python `dict.get`; the lists
we build keep keys unique, as a `dict` does). -/
def alGet {α : Type} (m : List (String × α)) (k : String) : Option α :=
  match m with
  | [] => none
  | p :: rest => if p.1 = k then some p.2 else alGet rest k

/-- Update of an association list under `dict` semantics: an existing key is
overwritten in place, a new key is appended (Python insertion order). -/
def alSet {α : Type} (m : List (String × α)) (k : String) (v : α) :
    List (String × α) :=
  if m.any (fun p => p.1 == k) then
    m.map (fun p => if p.1 == k then (k, v) else p)
  else
    m ++ [(k, v)]

/-- Key removal from an association list (Python `del d[k]`). -/
def alRemove {α : Type} (m : List (String × α)) (k : String) :
    List (String × α) :=
  m.filter (fun p => !(p.1 == k))

/-- Core task entity (`Task` in `src/domain/models.py`). -/
structure Task where
  id : TaskId
  title : String
  status : TaskStatus
  source : TaskSource
  created_at : DateTime
  updated_at : DateTime
  description : Option String := none
  priority : TaskPriority := .medium
  due_date : Option DateTime := none
  assignee : Option String := none
  tags : List String := []
  external_id : Option String := none
  metadata : Metadata := []
deriving DecidableEq

/-- `Task.is_due_today`: the due date's calendar day equals the current
calendar day (`now` stands for `datetime.now()`). -/
def Task.is_due_today (now : DateTime) (t : Task) : Bool :=
  match t.due_date with
  | none => false
  | some d => DateTime.sameDate d now

/-- `Task.is_overdue`: a due date strictly before now, except that a `done`
task is never overdue. -/
def Task.is_overdue (now : DateTime) (t : Task) : Bool :=
  match t.due_date with
  | none => false
  | some d => if t.status = .done then false else DateTime.ltb d now

/-- Filter criteria for task queries (`TaskFilter` in
`src/domain/models.py`).  `limit`/`offset` are kept as naturals: every
caller in the code base passes non-negative values. -/
structure TaskFilter where
  status : Option (List TaskStatus) := none
  priority : Option (List TaskPriority) := none
  source : Option (List TaskSource) := none
  assignee : Option String := none
  due_before : Option DateTime := none
  due_after : Option DateTime := none
  tags : Option (List String) := none
  limit : Nat := 100
  offset : Nat := 0

/-- The filtering pipeline shared verbatim by `TaskService.list_tasks`
(`src/services/task_service.py` lines 42-66) and
`InMemoryTaskRepository.list_tasks` (`src/repositories/memory.py` lines
18-42): the two Python bodies are identical.  Each predicate is guarded by
Python truthiness (`if filter.status:` is false for `None` and for an empty
list, `if filter.assignee:` is false for `None` and `""`, a `datetime` is
always truthy), and `result[offset : offset + limit]` is drop-then-take for
non-negative bounds. -/
def stageStatus (o : Option (List TaskStatus)) (r : List Task) : List Task :=
  match o with
  | some l => if l.isEmpty then r else r.filter (fun t => l.contains t.status)
  | none => r

def stagePriority (o : Option (List TaskPriority)) (r : List Task) : List Task :=
  match o with
  | some l => if l.isEmpty then r else r.filter (fun t => l.contains t.priority)
  | none => r

def stageSource (o : Option (List TaskSource)) (r : List Task) : List Task :=
  match o with
  | some l => if l.isEmpty then r else r.filter (fun t => l.contains t.source)
  | none => r

def stageAssignee (o : Option String) (r : List Task) : List Task :=
  match o with
  | some a => if a = "" then r else r.filter (fun t => t.assignee == some a)
  | none => r

def stageDueBefore (o : Option DateTime) (r : List Task) : List Task :=
  match o with
  | some b => r.filter (fun (t : Task) =>
      match t.due_date with
      | some d => DateTime.ltb d b
      | none => false)
  | none => r

def stageDueAfter (o : Option DateTime) (r : List Task) : List Task :=
  match o with
  | some b => r.filter (fun (t : Task) =>
      match t.due_date with
      | some d => DateTime.ltb b d
      | none => false)
  | none => r

def stageTags (o : Option (List String)) (r : List Task) : List Task :=
  match o with
  | some l => if l.isEmpty then r else r.filter (fun t => l.any (fun tag => t.tags.contains tag))
  | none => r

def applyTaskFilter (tasks : List Task) (f : TaskFilter) : List Task :=
  let r := tasks
  let r := stageStatus f.status r
  let r := stagePriority f.priority r
  let r := stageSource f.source r
  let r := stageAssignee f.assignee r
  let r := stageDueBefore f.due_before r
  let r := stageDueAfter f.due_after r
  let r := stageTags f.tags r
  (r.drop f.offset).take f.limit

/-- `InMemoryTaskRepository.get_by_id`: the repository is a `dict` keyed by
`task.id.value`, modelled as a list of tasks with unique ids. -/
def repo_get_by_id (l : List Task) (tid : TaskId) : Option Task :=
  l.find? (fun t => t.id == tid)

/-- `InMemoryTaskRepository.create`: raises if the id already exists. -/
def repo_create (t : Task) (l : List Task) : Except String (List Task) :=
  if l.any (fun d => d.id == t.id) then
    .error ("Task " ++ t.id.value ++ " already exists")
  else
    .ok (l ++ [t])

/-- `InMemoryTaskRepository.update`: raises if the id is absent, otherwise
replaces the stored task in place. -/
def repo_update (t : Task) (l : List Task) : Except String (List Task) :=
  if l.any (fun d => d.id == t.id) then
    .ok (l.map (fun d => if d.id == t.id then t else d))
  else
    .error ("Task " ++ t.id.value ++ " not found")

/-- `InMemoryTaskRepository.delete`: returns whether a record was removed. -/
def repo_delete (tid : TaskId) (l : List Task) : Bool × List Task :=
  if l.any (fun d => d.id == tid) then
    (true, l.filter (fun d => !(d.id == tid)))
  else
    (false, l)

/-- `InMemoryTaskRepository.exists`. -/
def repo_exists (tid : TaskId) (l : List Task) : Bool :=
  l.any (fun d => d.id == tid)

/-- `InMemoryTaskRepository.list_tasks`. -/
def repo_list_tasks (l : List Task) (f : Option TaskFilter) : List Task :=
  match f with
  | none => l
  | some f => applyTaskFilter l f

/-- `InMemoryCacheRepository.get_all`: the values of the cache `dict` in
insertion order. -/
def cache_get_all (c : List (String × Task)) : List Task :=
  c.map (fun p => p.2)

/-- State owned by one `TaskService` (`src/services/task_service.py`): the
team repository, the personal repository and the cache, each a keyed map. -/
structure SvcState where
  team : List Task
  personal : List Task
  cache : List (String × Task)
deriving DecidableEq

/-- Which read path produced the answer of `get_task`: the cache, the team
repository, the personal repository, or a total miss.  The Python code is
effectful; the path records which collaborators the call touched. -/
inductive ReadPath where
  | cacheHit
  | teamHit
  | personalHit
  | miss
deriving DecidableEq

/-- `TaskService.get_task`: cache first, then the team repository, then the
personal repository; a repository hit populates the cache; a total miss
returns `None`. -/
def get_task (tid : TaskId) (s : SvcState) : Option Task × SvcState × ReadPath :=
  match alGet s.cache tid.value with
  | some t => (some t, s, .cacheHit)
  | none =>
    match repo_get_by_id s.team tid with
    | some t => (some t, { s with cache := alSet s.cache tid.value t }, .teamHit)
    | none =>
      match repo_get_by_id s.personal tid with
      | some t => (some t, { s with cache := alSet s.cache tid.value t }, .personalHit)
      | none => (none, s, .miss)

/-- `TaskService.list_tasks`: reads the cache snapshot and filters it; a
`None` filter returns the snapshot unfiltered and unsliced. -/
def list_tasks (s : SvcState) (f : Option TaskFilter) : List Task :=
  let all_tasks := cache_get_all s.cache
  match f with
  | none => all_tasks
  | some f => applyTaskFilter all_tasks f

/-- `TaskService.create_task`: writes to the personal or team repository per
the flag, then mirrors the created value into the cache. -/
def create_task (t : Task) (personal : Bool) (s : SvcState) :
    Except String (Task × SvcState) :=
  if personal then
    match repo_create t s.personal with
    | .error e => .error e
    | .ok l => .ok (t, { s with personal := l, cache := alSet s.cache t.id.value t })
  else
    match repo_create t s.team with
    | .error e => .error e
    | .ok l => .ok (t, { s with team := l, cache := alSet s.cache t.id.value t })

/-- `TaskService.delete_task`: team repository first, then personal; a
success from either path also invalidates the cache entry. -/
def delete_task (tid : TaskId) (s : SvcState) : Bool × SvcState :=
  let teamRes := repo_delete tid s.team
  if teamRes.1 then
    (true, { s with team := teamRes.2, cache := alRemove s.cache tid.value })
  else
    let persRes := repo_delete tid s.personal
    if persRes.1 then
      (true, { s with personal := persRes.2, cache := alRemove s.cache tid.value })
    else
      (false, s)

/-- The `dict` comprehension `{t.id.value: t for t in tasks}` (later
duplicates overwrite earlier ones). -/
def dict_of_tasks (ts : List Task) : List (String × Task) :=
  ts.foldl (fun m t => alSet m t.id.value t) []

/-- `InMemoryCacheRepository.set_many` (`cache.update(tasks)`). -/
def set_many (c : List (String × Task)) (d : List (String × Task)) :
    List (String × Task) :=
  d.foldl (fun c kv => alSet c kv.1 kv.2) c

/-- `TaskService.sync_from_team`: bulk-load the team repository into the
cache, returning the number of tasks loaded. -/
def sync_from_team (s : SvcState) : Nat × SvcState :=
  (s.team.length, { s with cache := set_many s.cache (dict_of_tasks s.team) })

/-- `TaskService.sync_from_personal`. -/
def sync_from_personal (s : SvcState) : Nat × SvcState :=
  (s.personal.length, { s with cache := set_many s.cache (dict_of_tasks s.personal) })

/-! ### The sync rule engine (`src/services/sync_service.py`) -/

/-- Rule for syncing tasks from source to destination (`SyncRule`).  The
filter and mapper closures of the source are pure functions of the task (all
predicate and mapper builders shipped with the code are). -/
structure SyncRule where
  name : String
  source_filter : Task → Bool
  field_mapper : Option (Task → Task) := none
  skip_statuses : List TaskStatus := [.done]
  sync_updates : Bool := true
  enabled : Bool := true

/-- Result of running one sync rule (`SyncResult`). -/
structure SyncResult where
  rule_name : String
  created : Nat := 0
  updated : Nat := 0
  skipped : Nat := 0
  errors : List String := []
deriving DecidableEq

/-- `TaskSyncService.SYNC_SOURCE_KEY`. -/
def SYNC_SOURCE_KEY : String := "sync_source_id"

/-- `TaskSyncService.SYNC_SOURCE_DB_KEY`. -/
def SYNC_SOURCE_DB_KEY : String := "sync_source_db"

/-- The provenance key of a source task:
`task.external_id or task.id.value` (Python truthiness: `None` and the empty
string both fall through to the local id). -/
def sourceKey (t : Task) : String :=
  match t.external_id with
  | some s => if s = "" then t.id.value else s
  | none => t.id.value

/-- The provenance index entry contributed by one destination task, from
`TaskSyncService._get_synced_source_ids`: the task is indexed under its
`sync_source_id` metadata value when that value is truthy and its
`sync_source_db` metadata value equals the configured source name. -/
def taskEntry (db : String) (d : Task) : Option (String × Task) :=
  match alGet d.metadata SYNC_SOURCE_KEY with
  | some sid =>
    if sid = "" then none
    else if alGet d.metadata SYNC_SOURCE_DB_KEY = some db then some (sid, d)
    else none
  | none => none

/-- `TaskSyncService._get_synced_source_ids`: the provenance index over the
destination tasks, in destination order.  Later entries overwrite earlier
ones on lookup, as the Python `dict` assignment does. -/
def syncedEntries (db : String) (dst : List Task) : List (String × Task) :=
  dst.filterMap (taskEntry db)

/-- Lookup in the provenance index; the last entry for a key wins, matching
`synced[source_id] = task` executed in destination order. -/
def lastLookup (es : List (String × Task)) (k : String) : Option Task :=
  match es with
  | [] => none
  | (k', v) :: rest =>
    match lastLookup rest k with
    | some r => some r
    | none => if k' = k then some v else none

/-- Apply the rule's optional field mapper (`rule.field_mapper`). -/
def applyMapper (rule : SyncRule) (t : Task) : Task :=
  match rule.field_mapper with
  | some f => f t
  | none => t

/-- The destination task built by `TaskSyncService._create_synced_task`:
mapped source task with a fresh local id, source forced to the personal
variant, external id cleared, provenance metadata stamped, fresh
timestamps. -/
def mkNewTask (db : String) (now : DateTime) (n : Nat) (rule : SyncRule)
    (t : Task) : Task :=
  let mapped := applyMapper rule t
  let sid := sourceKey t
  { mapped with
    id := TaskId.generate n
    source := .notion_personal
    external_id := none
    metadata := alSet (alSet mapped.metadata SYNC_SOURCE_KEY sid) SYNC_SOURCE_DB_KEY db
    created_at := now
    updated_at := now }

/-- The destination task built by `TaskSyncService._update_synced_task`:
the existing destination task with the mapped source task's mutable fields
and a bumped `updated_at`; id and metadata are kept. -/
def mkUpdatedTask (now : DateTime) (rule : SyncRule) (t destTask : Task) : Task :=
  let mapped := applyMapper rule t
  { destTask with
    title := mapped.title
    description := mapped.description
    status := mapped.status
    priority := mapped.priority
    due_date := mapped.due_date
    tags := mapped.tags
    updated_at := now }

/-- The repository interface the sync engine talks to, as a state machine
over an abstract state `σ`: each call is a suspension point that may raise
(an `Except.error` carrying the exception's message). -/
structure SyncEnv (σ : Type) where
  listSource : σ → Except String (List Task)
  listDest : σ → Except String (List Task)
  createDest : Task → σ → Except String σ
  updateDest : Task → σ → Except String σ

/-- The error string recorded for a failure while processing one source task
(`f"Error syncing task {task.id}: {e}"`). -/
def taskErrMsg (t : Task) (e : String) : String :=
  "Error syncing task " ++ t.id.value ++ ": " ++ e

/-- The error string recorded for a rule-level failure
(`f"Error executing rule {rule.name}: {e}"`). -/
def ruleErrMsg (rule : SyncRule) (e : String) : String :=
  "Error executing rule " ++ rule.name ++ ": " ++ e

/-- The body of the per-task loop of `TaskSyncService._execute_rule`
(lines 131-163 of `src/services/sync_service.py`): filter, skip-status
check, provenance lookup against the snapshot taken before the loop, then
update / skip / create; any failure from a repository call is caught and
appended to the error list.  The `Nat` component is the uuid counter. -/
def stepTask {σ : Type} (env : SyncEnv σ) (db : String) (now : DateTime)
    (rule : SyncRule) (synced : List (String × Task)) (t : Task)
    (acc : σ × Nat × SyncResult) : σ × Nat × SyncResult :=
  let st := acc.1
  let n := acc.2.1
  let res := acc.2.2
  if rule.source_filter t then
    if t.status ∈ rule.skip_statuses then
      (st, n, { res with skipped := res.skipped + 1 })
    else
      match lastLookup synced (sourceKey t) with
      | some destTask =>
        if rule.sync_updates then
          match env.updateDest (mkUpdatedTask now rule t destTask) st with
          | .ok st' => (st', n, { res with updated := res.updated + 1 })
          | .error e => (st, n, { res with errors := res.errors ++ [taskErrMsg t e] })
        else
          (st, n, { res with skipped := res.skipped + 1 })
      | none =>
        match env.createDest (mkNewTask db now n rule t) st with
        | .ok st' => (st', n + 1, { res with created := res.created + 1 })
        | .error e => (st, n + 1, { res with errors := res.errors ++ [taskErrMsg t e] })
  else
    (st, n, res)

/-- The per-task loop of `TaskSyncService._execute_rule`, processing the
source tasks in source-repository order. -/
def syncLoop {σ : Type} (env : SyncEnv σ) (db : String) (now : DateTime)
    (rule : SyncRule) (synced : List (String × Task)) :
    List Task → σ × Nat × SyncResult → σ × Nat × SyncResult
  | [], acc => acc
  | t :: rest, acc =>
    syncLoop env db now rule synced rest (stepTask env db now rule synced t acc)

/-- The `SyncResult` a rule starts from. -/
def initResult (rule : SyncRule) : SyncResult := { rule_name := rule.name }

/-- `TaskSyncService._execute_rule`: list the source and destination (a
failure of either aborts the rule with a single error entry and no writes),
build the provenance snapshot, then run the per-task loop. -/
def execute_rule {σ : Type} (env : SyncEnv σ) (db : String) (now : DateTime)
    (rule : SyncRule) (st : σ) (n : Nat) : SyncResult × σ × Nat :=
  match env.listSource st with
  | .error e => ({ initResult rule with errors := [ruleErrMsg rule e] }, st, n)
  | .ok source_tasks =>
    match env.listDest st with
    | .error e => ({ initResult rule with errors := [ruleErrMsg rule e] }, st, n)
    | .ok dest_tasks =>
      let synced := syncedEntries db dest_tasks
      let out := syncLoop env db now rule synced source_tasks (st, n, initResult rule)
      (out.2.2, out.1, out.2.1)

/-- The loop over rules inside `TaskSyncService.sync`: disabled rules are
silently skipped, every other rule contributes one result. -/
def syncRules {σ : Type} (env : SyncEnv σ) (db : String) (now : DateTime) :
    List SyncRule → σ → Nat → List SyncResult × σ × Nat
  | [], st, n => ([], st, n)
  | r :: rest, st, n =>
    if r.enabled then
      let out := execute_rule env db now r st n
      let outs := syncRules env db now rest out.2.1 out.2.2
      (out.1 :: outs.1, outs.2.1, outs.2.2)
    else
      syncRules env db now rest st n

/-- `TaskSyncService.sync`: with a (truthy) rule name only the rules bearing
that name run; otherwise every rule runs.  `if rule_name:` is Python
truthiness, so an empty-string name behaves like `None`. -/
def sync {σ : Type} (env : SyncEnv σ) (db : String) (now : DateTime)
    (rules : List SyncRule) (rule_name : Option String) (st : σ) (n : Nat) :
    List SyncResult × σ × Nat :=
  let rules_to_run := match rule_name with
    | some nm => if nm = "" then rules else rules.filter (fun r => r.name == nm)
    | none => rules
  syncRules env db now rules_to_run st n

/-- State of the two in-memory repositories a `TaskSyncService` is wired to
in the tests: the source and destination task stores. -/
structure MemState where
  source : List Task
  dest : List Task
deriving DecidableEq

/-- The `SyncEnv` given by two `InMemoryTaskRepository` instances: listing
never fails and returns insertion order, create fails on a duplicate id,
update fails on a missing id; the engine never writes to the source. -/
def memEnv : SyncEnv MemState where
  listSource := fun s => .ok s.source
  listDest := fun s => .ok s.dest
  createDest := fun t s =>
    match repo_create t s.dest with
    | .ok l => .ok ⟨s.source, l⟩
    | .error e => .error e
  updateDest := fun t s =>
    match repo_update t s.dest with
    | .ok l => .ok ⟨s.source, l⟩
    | .error e => .error e

/-- `tag_filter` from `src/services/sync_service.py`. -/
def tag_filter (tag : String) : Task → Bool :=
  fun t => t.tags.contains tag

/-! ### Mention text extraction (`src/services/mention_service.py`)

`MentionService.extract_task_details` is a pure function of the message
text built from four regular expressions; each is spelled out here as a
scanner over the character list of the text.  The patterns are ASCII, so
`\w` is letter/digit/underscore, `\d` a decimal digit, `\S` a
non-whitespace character, and `re.IGNORECASE` is ASCII case folding. -/

/-- ASCII lower-casing (`re.IGNORECASE` folding / `str.lower`). -/
def lowerChar (c : Char) : Char :=
  if 'A' ≤ c ∧ c ≤ 'Z' then Char.ofNat (c.toNat + 32) else c

/-- Regex `\w` for ASCII text. -/
def isWordChar (c : Char) : Bool := c.isAlphanum || c == '_'

/-- Python whitespace (`str.split()` separators, complement of `\S`). -/
def isSpaceChar (c : Char) : Bool :=
  c == ' ' || c == '\t' || c == '\n' || c == '\r' || c.toNat == 11 || c.toNat == 12

/-- Does `cs` start (case-insensitively) with the keyword `kw`? -/
def lcStartsWith (kw : List Char) (cs : List Char) : Bool :=
  (cs.take kw.length).map lowerChar == kw

/-- Matching the alternation `(low|medium|high|urgent)` at the head of the
list, trying the alternatives in the pattern's order; returns the priority
and the number of characters matched. -/
def matchKw (cs : List Char) : Option (TaskPriority × Nat) :=
  if lcStartsWith ['l', 'o', 'w'] cs then some (.low, 3)
  else if lcStartsWith ['m', 'e', 'd', 'i', 'u', 'm'] cs then some (.medium, 6)
  else if lcStartsWith ['h', 'i', 'g', 'h'] cs then some (.high, 4)
  else if lcStartsWith ['u', 'r', 'g', 'e', 'n', 't'] cs then some (.urgent, 6)
  else none

/-- `re.search(r"!(low|medium|high|urgent)", text, re.IGNORECASE)`: the
leftmost occurrence of an exclamation mark followed by a keyword. -/
def searchPriority : List Char → Option TaskPriority
  | [] => none
  | c :: rest =>
    if c = '!' then
      match matchKw rest with
      | some pr => some pr.1
      | none => searchPriority rest
    else searchPriority rest

/-- Specification-side description of a priority token: the pattern
`!(low|medium|high|urgent)` matches at offset `i` of `cs` with this
priority. -/
def priorityAt (cs : List Char) (i : Nat) : Option TaskPriority :=
  match cs.drop i with
  | [] => none
  | c :: rest => if c = '!' then (matchKw rest).map (fun pr => pr.1) else none

/-- Numeric value of a decimal digit character. -/
def dval (c : Char) : Nat := c.toNat - 48

/-- Matching `due:(\d{4}-\d{2}-\d{2})` at the head of the list. -/
def matchDueAt : List Char → Option (Nat × Nat × Nat)
  | 'd' :: 'u' :: 'e' :: ':' :: y1 :: y2 :: y3 :: y4 :: '-' :: m1 :: m2 :: '-' :: d1 :: d2 :: _ =>
    if y1.isDigit && y2.isDigit && y3.isDigit && y4.isDigit && m1.isDigit &&
        m2.isDigit && d1.isDigit && d2.isDigit then
      some (1000 * dval y1 + 100 * dval y2 + 10 * dval y3 + dval y4,
        10 * dval m1 + dval m2, 10 * dval d1 + dval d2)
    else none
  | _ => none

/-- `re.search(r"due:(\d{4}-\d{2}-\d{2})", text)`: the leftmost match. -/
def searchDue : List Char → Option (Nat × Nat × Nat)
  | [] => none
  | c :: rest =>
    match matchDueAt (c :: rest) with
    | some r => some r
    | none => searchDue rest

/-- Gregorian leap year, as `datetime` implements it. -/
def isLeapYear (y : Nat) : Bool :=
  y % 4 == 0 && (!(y % 100 == 0) || y % 400 == 0)

/-- Days in a month, as `datetime` implements it. -/
def daysInMonth (y m : Nat) : Nat :=
  if m == 1 || m == 3 || m == 5 || m == 7 || m == 8 || m == 10 || m == 12 then 31
  else if m == 4 || m == 6 || m == 9 || m == 11 then 30
  else if isLeapYear y then 29 else 28

/-- Whether `datetime.strptime(s, "%Y-%m-%d")` accepts the date (years 1 to
9999, months 1 to 12, days valid for the month). -/
def validDate (y m d : Nat) : Bool :=
  decide (1 ≤ y ∧ y ≤ 9999 ∧ 1 ≤ m ∧ m ≤ 12 ∧ 1 ≤ d ∧ d ≤ daysInMonth y m)

/-- `re.findall(r"#(\w+)", text)`: all non-overlapping hashtag words, left
to right, duplicates kept.  The fuel argument starts at the list length;
every step consumes at least one character. -/
def findTagsF : Nat → List Char → List (List Char)
  | 0, _ => []
  | _ + 1, [] => []
  | n + 1, c :: rest =>
    if c = '#' then
      let w := rest.takeWhile isWordChar
      if w.isEmpty then findTagsF n rest
      else w :: findTagsF n (rest.drop w.length)
    else findTagsF n rest

/-- All hashtag words of the text. -/
def findTags (cs : List Char) : List (List Char) := findTagsF cs.length cs

/-- `re.sub(r"!(low|medium|high|urgent)", "", title, flags=re.IGNORECASE)`. -/
def subPriorityF : Nat → List Char → List Char
  | 0, cs => cs
  | _ + 1, [] => []
  | n + 1, c :: rest =>
    if c = '!' then
      match matchKw rest with
      | some pr => subPriorityF n (rest.drop pr.2)
      | none => c :: subPriorityF n rest
    else c :: subPriorityF n rest

def subPriority (cs : List Char) : List Char := subPriorityF cs.length cs

/-- `re.sub(r"due:\S+", "", title)`: `due:` plus all following non-space
characters (at least one) are removed. -/
def subDueF : Nat → List Char → List Char
  | 0, cs => cs
  | _ + 1, [] => []
  | n + 1, 'd' :: 'u' :: 'e' :: ':' :: rest =>
    let w := rest.takeWhile (fun c => !(isSpaceChar c))
    if w.isEmpty then 'd' :: subDueF n ('u' :: 'e' :: ':' :: rest)
    else subDueF n (rest.drop w.length)
  | n + 1, c :: rest => c :: subDueF n rest

def subDue (cs : List Char) : List Char := subDueF cs.length cs

/-- `re.sub(r"#\w+", "", title)`. -/
def subTagsF : Nat → List Char → List Char
  | 0, cs => cs
  | _ + 1, [] => []
  | n + 1, c :: rest =>
    if c = '#' then
      let w := rest.takeWhile isWordChar
      if w.isEmpty then c :: subTagsF n rest
      else subTagsF n (rest.drop w.length)
    else c :: subTagsF n rest

def subTags (cs : List Char) : List Char := subTagsF cs.length cs

/-- `re.sub(r"<@\w+>", "", title)` (Slack user mentions). -/
def subSlackF : Nat → List Char → List Char
  | 0, cs => cs
  | _ + 1, [] => []
  | n + 1, '<' :: '@' :: rest =>
    let w := rest.takeWhile isWordChar
    if !w.isEmpty && (rest.drop w.length).head? == some '>' then
      subSlackF n (rest.drop (w.length + 1))
    else '<' :: subSlackF n ('@' :: rest)
  | n + 1, c :: rest => c :: subSlackF n rest

def subSlack (cs : List Char) : List Char := subSlackF cs.length cs

/-- `re.sub(r"<@!\d+>", "", title)` (Discord user mentions). -/
def subDiscordF : Nat → List Char → List Char
  | 0, cs => cs
  | _ + 1, [] => []
  | n + 1, '<' :: '@' :: '!' :: rest =>
    let w := rest.takeWhile Char.isDigit
    if !w.isEmpty && (rest.drop w.length).head? == some '>' then
      subDiscordF n (rest.drop (w.length + 1))
    else '<' :: subDiscordF n ('@' :: '!' :: rest)
  | n + 1, c :: rest => c :: subDiscordF n rest

def subDiscord (cs : List Char) : List Char := subDiscordF cs.length cs

/-- The words of the text, split on whitespace runs (`str.split()`). -/
def wordsF : Nat → List Char → List (List Char)
  | 0, _ => []
  | _ + 1, [] => []
  | n + 1, c :: rest =>
    if isSpaceChar c then wordsF n rest
    else
      let w := rest.takeWhile (fun c => !(isSpaceChar c))
      (c :: w) :: wordsF n (rest.drop w.length)

/-- Joining words with single spaces (`" ".join(...)`). -/
def joinSpaces : List (List Char) → List Char
  | [] => []
  | [w] => w
  | w :: ws => w ++ ' ' :: joinSpaces ws

/-- `" ".join(title.split())`: whitespace normalization. -/
def normalizeWs (cs : List Char) : List Char := joinSpaces (wordsF cs.length cs)

/-- The dictionary returned by `MentionService.extract_task_details`. -/
structure MentionDetails where
  title : String
  priority : TaskPriority
  due_date : Option DateTime
  tags : List String
deriving DecidableEq

/-- `MentionService.extract_task_details` (lines 36-78 of
`src/services/mention_service.py`): extract the priority (first match,
default medium), the due date (first syntactic match, dropped when
`strptime` rejects it), the hashtag words, and the cleaned title with the
fixed fallback for an empty result. -/
def extract_task_details (text : String) : MentionDetails :=
  let cs := text.data
  let priority := match searchPriority cs with
    | some p => p
    | none => .medium
  let due_date := match searchDue cs with
    | some (y, m, d) => if validDate y m d then some ⟨y, m, d, 0⟩ else none
    | none => none
  let tags := (findTags cs).map (fun w => String.mk w)
  let title := String.mk (normalizeWs (subDiscord (subSlack (subTags (subDue (subPriority cs))))))
  { title := if title = "" then "Task from mention" else title
    priority := priority
    due_date := due_date
    tags := tags }

/-! ### Association-list lemmas -/

theorem alGet_map_replace {α : Type} (m : List (String × α)) (k : String) (v : α)
    (h : m.any (fun p => p.1 == k) = true) :
    alGet (m.map (fun p => if p.1 == k then (k, v) else p)) k = some v := by
  induction m with
  | nil => simp at h
  | cons p rest ih =>
    by_cases hp : p.1 = k
    · simp [alGet, hp]
    · have h' : rest.any (fun p => p.1 == k) = true := by
        simpa [List.any_cons, hp] using h
      simpa [alGet, hp] using ih h'

theorem alGet_map_replace_ne {α : Type} (m : List (String × α)) (k k' : String)
    (v : α) (hne : k' ≠ k) :
    alGet (m.map (fun p => if p.1 == k then (k, v) else p)) k' = alGet m k' := by
  induction m with
  | nil => simp [alGet]
  | cons p rest ih =>
    rw [List.map_cons]
    by_cases hp : p.1 = k
    · have hhead : (if (p.1 == k) = true then (k, v) else p) = (k, v) := by simp [hp]
      have h1 : ¬(k = k') := fun hh => hne hh.symm
      have h2 : ¬(p.1 = k') := by rw [hp]; exact h1
      rw [hhead]
      simp only [alGet]
      rw [if_neg h1, if_neg h2]
      exact ih
    · have hhead : (if (p.1 == k) = true then (k, v) else p) = p := by simp [hp]
      rw [hhead]
      simp only [alGet]
      by_cases hp' : p.1 = k'
      · rw [if_pos hp', if_pos hp']
      · rw [if_neg hp', if_neg hp']
        exact ih

theorem alGet_none_of_any_false {α : Type} (m : List (String × α)) (k : String)
    (h : m.any (fun p => p.1 == k) = false) : alGet m k = none := by
  induction m with
  | nil => rfl
  | cons p rest ih =>
    have hp : ¬(p.1 = k) := by
      intro hk
      simp [List.any_cons, hk] at h
    have h' : rest.any (fun p => p.1 == k) = false := by
      simpa [List.any_cons, hp] using h
    simpa [alGet, hp] using ih h'

theorem alGet_append_one_self {α : Type} (m : List (String × α)) (k : String)
    (v : α) (h : alGet m k = none) : alGet (m ++ [(k, v)]) k = some v := by
  induction m with
  | nil => simp [alGet]
  | cons p rest ih =>
    by_cases hp : p.1 = k
    · simp [alGet, hp] at h
    · simp [alGet, hp] at h ⊢
      exact ih h

theorem alGet_append_one_ne {α : Type} (m : List (String × α)) (k k' : String)
    (v : α) (hne : k' ≠ k) : alGet (m ++ [(k, v)]) k' = alGet m k' := by
  induction m with
  | nil => simp [alGet, Ne.symm hne]
  | cons p rest ih =>
    by_cases hp : p.1 = k'
    · simp [alGet, hp]
    · simpa [alGet, hp] using ih

theorem alGet_alSet_self {α : Type} (m : List (String × α)) (k : String) (v : α) :
    alGet (alSet m k v) k = some v := by
  unfold alSet
  by_cases h : m.any (fun p => p.1 == k) = true
  · rw [if_pos h]
    exact alGet_map_replace m k v h
  · rw [if_neg h]
    exact alGet_append_one_self m k v
      (alGet_none_of_any_false m k (by rwa [Bool.not_eq_true] at h))

theorem alGet_alSet_ne {α : Type} (m : List (String × α)) (k k' : String) (v : α)
    (hne : k' ≠ k) : alGet (alSet m k v) k' = alGet m k' := by
  unfold alSet
  by_cases h : m.any (fun p => p.1 == k) = true
  · rw [if_pos h]
    exact alGet_map_replace_ne m k k' v hne
  · rw [if_neg h]
    exact alGet_append_one_ne m k k' v hne

theorem alGet_alRemove_self {α : Type} (m : List (String × α)) (k : String) :
    alGet (alRemove m k) k = none := by
  unfold alRemove
  induction m with
  | nil => rfl
  | cons p rest ih =>
    by_cases hp : p.1 = k
    · simpa [List.filter_cons, hp] using ih
    · simpa [List.filter_cons, hp, alGet] using ih

/-! ### C8: due-today and overdue predicates -/

/-- C8: for every task, "due today" holds exactly when the task has a due
date whose calendar day equals the current one, and "overdue" holds exactly
when the task has a due date strictly before now and its status is not
done; a done task is never overdue, and a task without a due date is
neither due today nor overdue. -/
theorem due_overdue_correct (now : DateTime) (t : Task) :
    (t.is_due_today now = true ↔
      ∃ d, t.due_date = some d ∧ d.year = now.year ∧ d.month = now.month ∧ d.day = now.day) ∧
    (t.is_overdue now = true ↔
      ∃ d, t.due_date = some d ∧ DateTime.ltb d now = true ∧ t.status ≠ .done) ∧
    (t.status = .done → t.is_overdue now = false) ∧
    (t.due_date = none → t.is_due_today now = false ∧ t.is_overdue now = false) := by
  refine ⟨?_, ?_, ?_, ?_⟩
  · cases hdd : t.due_date with
    | none => simp [Task.is_due_today, hdd]
    | some d => simp [Task.is_due_today, hdd, DateTime.sameDate, and_assoc]
  · cases hdd : t.due_date with
    | none => simp [Task.is_overdue, hdd]
    | some d =>
      by_cases hs : t.status = .done
      · simp [Task.is_overdue, hdd, hs]
      · simp [Task.is_overdue, hdd, hs]
  · intro hs
    cases hdd : t.due_date with
    | none => simp [Task.is_overdue, hdd]
    | some d => simp [Task.is_overdue, hdd, hs]
  · intro hdd
    simp [Task.is_due_today, Task.is_overdue, hdd]

/-- Witness for C8 at a concrete task: due yesterday and not done, hence
overdue. -/
theorem due_overdue_correct_witness :
    Task.is_overdue ⟨2024, 1, 2, 0⟩
      { id := ⟨"w8"⟩, title := "w", status := .todo, source := .manual,
        created_at := ⟨2024, 1, 1, 0⟩, updated_at := ⟨2024, 1, 1, 0⟩,
        due_date := some ⟨2024, 1, 1, 0⟩ } = true :=
  (due_overdue_correct ⟨2024, 1, 2, 0⟩ _).2.1.mpr
    ⟨⟨2024, 1, 1, 0⟩, rfl, by decide, by decide⟩

/-! ### C9: mention text extraction -/

theorem searchPriority_leftmost :
    ∀ (cs : List Char) (i : Nat) (p : TaskPriority),
      priorityAt cs i = some p → (∀ j, j < i → priorityAt cs j = none) →
      searchPriority cs = some p := by
  intro cs
  induction cs with
  | nil =>
    intro i p h _
    simp [priorityAt] at h
  | cons c rest ih =>
    intro i p h hmin
    match i with
    | 0 =>
      have h0 : (if c = '!' then (matchKw rest).map (fun pr => pr.1) else none)
          = some p := h
      by_cases hc : c = '!'
      · rw [if_pos hc] at h0
        obtain ⟨pr, hpr, hp1⟩ := Option.map_eq_some'.mp h0
        rw [searchPriority, if_pos hc, hpr]
        simpa using hp1
      · rw [if_neg hc] at h0
        exact absurd h0 (by simp)
    | Nat.succ j =>
      have h0 : (if c = '!' then (matchKw rest).map (fun pr => pr.1) else none)
          = none := hmin 0 (Nat.succ_pos j)
      have hj : priorityAt rest j = some p := h
      have hmin' : ∀ j', j' < j → priorityAt rest j' = none := fun j' hj' =>
        hmin (j' + 1) (Nat.succ_lt_succ hj')
      by_cases hc : c = '!'
      · rw [if_pos hc] at h0
        have hmk : matchKw rest = none := Option.map_eq_none'.mp h0
        rw [searchPriority, if_pos hc, hmk]
        exact ih j p hj hmin'
      · rw [searchPriority, if_neg hc]
        exact ih j p hj hmin'

/-- C9: `extract_task_details` is a pure function of the text; the concrete
example parses as the spec says; the first priority token (leftmost match)
wins; a syntactically matching but invalid due date is silently dropped;
hashtag words are collected in order with duplicates kept; an empty cleaned
title falls back to the fixed default. -/
theorem extract_task_details_spec :
    extract_task_details "<@U1> Review PR !high due:2024-01-15 #review" =
      { title := "Review PR", priority := .high,
        due_date := some ⟨2024, 1, 15, 0⟩, tags := ["review"] } ∧
    (∀ (text : String) (i : Nat) (p : TaskPriority),
      priorityAt text.data i = some p →
      (∀ j, j < i → priorityAt text.data j = none) →
      (extract_task_details text).priority = p) ∧
    (∀ (text : String) (y m d : Nat),
      searchDue text.data = some (y, m, d) → validDate y m d = false →
      (extract_task_details text).due_date = none) ∧
    (extract_task_details "#a #b #a x").tags = ["a", "b", "a"] ∧
    (extract_task_details "<@U1> !high").title = "Task from mention" := by
  refine ⟨by decide, ?_, ?_, by decide, by decide⟩
  · intro text i p h hmin
    have hs := searchPriority_leftmost text.data i p h hmin
    simp [extract_task_details, hs]
  · intro text y m d h hv
    simp [extract_task_details, h, hv]

/-- Witness for C9: the leftmost-priority conjunct applied at a message
carrying two priority tokens. -/
theorem extract_task_details_spec_witness :
    (extract_task_details "say !low or !high").priority = .low :=
  extract_task_details_spec.2.1 "say !low or !high" 4 .low (by decide) (by decide)

/-! ### C6 and C10: the filter pipeline -/

/-- Modelled from the spec's wording of `list_tasks`: "status set
membership" guarded by the filter field's truthiness. -/
def statusOk (o : Option (List TaskStatus)) (t : Task) : Bool :=
  match o with
  | some l => if l.isEmpty then true else l.contains t.status
  | none => true

/-- Modelled from the spec: priority set membership. -/
def priorityOk (o : Option (List TaskPriority)) (t : Task) : Bool :=
  match o with
  | some l => if l.isEmpty then true else l.contains t.priority
  | none => true

/-- Modelled from the spec: source set membership. -/
def sourceOk (o : Option (List TaskSource)) (t : Task) : Bool :=
  match o with
  | some l => if l.isEmpty then true else l.contains t.source
  | none => true

/-- Modelled from the spec: assignee equality. -/
def assigneeOk (o : Option String) (t : Task) : Bool :=
  match o with
  | some a => if a = "" then true else t.assignee == some a
  | none => true

/-- Modelled from the spec: due-before bound (only tasks carrying a due
date can satisfy it). -/
def dueBeforeOk (o : Option DateTime) (t : Task) : Bool :=
  match o with
  | some b =>
    match t.due_date with
    | some d => DateTime.ltb d b
    | none => false
  | none => true

/-- Modelled from the spec: due-after bound. -/
def dueAfterOk (o : Option DateTime) (t : Task) : Bool :=
  match o with
  | some b =>
    match t.due_date with
    | some d => DateTime.ltb b d
    | none => false
  | none => true

/-- Modelled from the spec: tag intersection (ANY match). -/
def tagsOk (o : Option (List String)) (t : Task) : Bool :=
  match o with
  | some l => if l.isEmpty then true else l.any (fun tag => t.tags.contains tag)
  | none => true

/-- Modelled from the spec: the conjunction of the seven filter predicates
in the spec's listed order. -/
def matchesFilterSpec (f : TaskFilter) (t : Task) : Bool :=
  statusOk f.status t && priorityOk f.priority t && sourceOk f.source t &&
    assigneeOk f.assignee t && dueBeforeOk f.due_before t &&
    dueAfterOk f.due_after t && tagsOk f.tags t

theorem stageStatus_eq (o : Option (List TaskStatus)) (r : List Task) :
    stageStatus o r = r.filter (fun t => statusOk o t) := by
  cases o with
  | none => simp [stageStatus, statusOk]
  | some l =>
    by_cases hl : l.isEmpty
    · simp [stageStatus, statusOk, hl]
    · simp [stageStatus, statusOk, hl]

theorem stagePriority_eq (o : Option (List TaskPriority)) (r : List Task) :
    stagePriority o r = r.filter (fun t => priorityOk o t) := by
  cases o with
  | none => simp [stagePriority, priorityOk]
  | some l =>
    by_cases hl : l.isEmpty
    · simp [stagePriority, priorityOk, hl]
    · simp [stagePriority, priorityOk, hl]

theorem stageSource_eq (o : Option (List TaskSource)) (r : List Task) :
    stageSource o r = r.filter (fun t => sourceOk o t) := by
  cases o with
  | none => simp [stageSource, sourceOk]
  | some l =>
    by_cases hl : l.isEmpty
    · simp [stageSource, sourceOk, hl]
    · simp [stageSource, sourceOk, hl]

theorem stageAssignee_eq (o : Option String) (r : List Task) :
    stageAssignee o r = r.filter (fun t => assigneeOk o t) := by
  cases o with
  | none => simp [stageAssignee, assigneeOk]
  | some a =>
    by_cases ha : a = ""
    · simp [stageAssignee, assigneeOk, ha]
    · simp [stageAssignee, assigneeOk, ha]

theorem stageDueBefore_eq (o : Option DateTime) (r : List Task) :
    stageDueBefore o r = r.filter (fun t => dueBeforeOk o t) := by
  cases o with
  | none => simp [stageDueBefore, dueBeforeOk]
  | some b => simp [stageDueBefore, dueBeforeOk]

theorem stageDueAfter_eq (o : Option DateTime) (r : List Task) :
    stageDueAfter o r = r.filter (fun t => dueAfterOk o t) := by
  cases o with
  | none => simp [stageDueAfter, dueAfterOk]
  | some b => simp [stageDueAfter, dueAfterOk]

theorem stageTags_eq (o : Option (List String)) (r : List Task) :
    stageTags o r = r.filter (fun t => tagsOk o t) := by
  cases o with
  | none => simp [stageTags, tagsOk]
  | some l =>
    by_cases hl : l.isEmpty
    · simp [stageTags, tagsOk, hl]
    · simp [stageTags, tagsOk, hl]

/-- The pipeline of seven sequential filters equals one pass with the
conjunction of the spec's predicates, followed by the slice. -/
theorem applyTaskFilter_eq (tasks : List Task) (f : TaskFilter) :
    applyTaskFilter tasks f =
      ((tasks.filter (fun t => matchesFilterSpec f t)).drop f.offset).take f.limit := by
  simp only [applyTaskFilter]
  rw [stageStatus_eq, stagePriority_eq, stageSource_eq, stageAssignee_eq,
    stageDueBefore_eq, stageDueAfter_eq, stageTags_eq]
  simp only [List.filter_filter]
  congr 1
  congr 1
  refine List.filter_congr ?_
  intro t _
  simp only [matchesFilterSpec]
  simp [Bool.and_assoc, Bool.and_comm, Bool.and_left_comm]

/-- C6: `list_tasks` reads only from the cache snapshot; with a filter it
applies the seven predicates (in the fixed order, which is equivalent to
one conjunctive pass) and slices last; a null filter returns the
unfiltered, unsliced snapshot with no default limit applied. -/
theorem list_tasks_spec (team personal team' personal' : List Task)
    (cache : List (String × Task)) (fopt : Option TaskFilter) (f : TaskFilter) :
    list_tasks ⟨team, personal, cache⟩ fopt = list_tasks ⟨team', personal', cache⟩ fopt ∧
    list_tasks ⟨team, personal, cache⟩ none = cache_get_all cache ∧
    list_tasks ⟨team, personal, cache⟩ (some f) =
      (((cache_get_all cache).filter (fun t => matchesFilterSpec f t)).drop
        f.offset).take f.limit := by
  refine ⟨rfl, rfl, ?_⟩
  show applyTaskFilter (cache_get_all cache) f = _
  exact applyTaskFilter_eq _ f

/-- C10: a due-before or due-after bound excludes every task without a due
date, both in `TaskService.list_tasks` and in
`InMemoryTaskRepository.list_tasks`. -/
theorem due_bounds_exclude_dateless (f : TaskFilter) (t : Task)
    (hbounds : f.due_before ≠ none ∨ f.due_after ≠ none) :
    (∀ s : SvcState, t ∈ list_tasks s (some f) → t.due_date ≠ none) ∧
    (∀ l : List Task, t ∈ repo_list_tasks l (some f) → t.due_date ≠ none) := by
  have key : ∀ (tasks : List Task), t ∈ applyTaskFilter tasks f → t.due_date ≠ none := by
    intro tasks ht
    rw [applyTaskFilter_eq] at ht
    have ht2 := List.mem_of_mem_drop (List.mem_of_mem_take ht)
    have hm := (List.mem_filter.mp ht2).2
    simp only [matchesFilterSpec, Bool.and_eq_true] at hm
    obtain ⟨⟨⟨⟨⟨⟨_, _⟩, _⟩, _⟩, hb⟩, ha⟩, _⟩ := hm
    cases hbounds with
    | inl h =>
      cases hdb : f.due_before with
      | none => exact absurd hdb h
      | some b =>
        cases hdd : t.due_date with
        | none => simp [dueBeforeOk, hdb, hdd] at hb
        | some d => simp [hdd]
    | inr h =>
      cases hdb : f.due_after with
      | none => exact absurd hdb h
      | some b =>
        cases hdd : t.due_date with
        | none => simp [dueAfterOk, hdb, hdd] at ha
        | some d => simp [hdd]
  exact ⟨fun s ht => key _ ht, fun l ht => key _ ht⟩

/-! ### Concrete objects shared by the witnesses and scenarios -/

/-- A fixed clock value used by concrete scenarios. -/
def dt0 : DateTime := ⟨2024, 1, 1, 0⟩

/-- Source task A of the spec's sync scenario: todo, tagged `review`. -/
def taskA : Task :=
  { id := ⟨"a1"⟩, title := "A", status := .todo, source := .notion_team,
    created_at := dt0, updated_at := dt0, tags := ["review"] }

/-- Source task B of the spec's sync scenario: done, tagged `review`. -/
def taskB : Task :=
  { id := ⟨"b1"⟩, title := "B", status := .done, source := .notion_team,
    created_at := dt0, updated_at := dt0, tags := ["review"] }

/-- Source task C of the spec's sync scenario: todo, tagged `bug`. -/
def taskC : Task :=
  { id := ⟨"c1"⟩, title := "C", status := .todo, source := .notion_team,
    created_at := dt0, updated_at := dt0, tags := ["bug"] }

/-- A done task that does not pass the `review` tag filter. -/
def taskDoneBug : Task :=
  { id := ⟨"d1"⟩, title := "D", status := .done, source := .notion_team,
    created_at := dt0, updated_at := dt0, tags := ["bug"] }

/-- The scenario rule: filter on tag `review`, skip done tasks, sync
updates, enabled. -/
def ruleReview : SyncRule := { name := "r", source_filter := tag_filter "review" }

/-- A task carrying a due date, used by witnesses. -/
def taskDue : Task :=
  { id := ⟨"w10"⟩, title := "due", status := .todo, source := .manual,
    created_at := dt0, updated_at := dt0, due_date := some ⟨2024, 1, 1, 12⟩ }

/-- Witness for C10 at a concrete filter and cache state. -/
theorem due_bounds_exclude_dateless_witness : taskDue.due_date ≠ none :=
  (due_bounds_exclude_dateless { due_before := some ⟨2024, 1, 2, 0⟩ } taskDue
    (Or.inl (by decide))).1 ⟨[], [], [("w10", taskDue)]⟩ (by decide)

/-! ### C7: bulk cache refresh -/

theorem set_many_get_not_mem {c d : List (String × Task)} {k : String}
    (h : ∀ kv ∈ d, kv.1 ≠ k) : alGet (set_many c d) k = alGet c k := by
  induction d generalizing c with
  | nil => rfl
  | cons kv rest ih =>
    have hstep : set_many c (kv :: rest) = set_many (alSet c kv.1 kv.2) rest := rfl
    rw [hstep, ih (fun kv' hkv' => h kv' (List.mem_cons_of_mem _ hkv')),
      alGet_alSet_ne _ _ _ _ (fun he => h kv (List.mem_cons_self _ _) he.symm)]

theorem set_many_get_mem {c d : List (String × Task)} {k : String} {v : Task}
    (hnd : (d.map Prod.fst).Nodup) (h : alGet d k = some v) :
    alGet (set_many c d) k = some v := by
  induction d generalizing c with
  | nil => simp [alGet] at h
  | cons kv rest ih =>
    have hstep : set_many c (kv :: rest) = set_many (alSet c kv.1 kv.2) rest := rfl
    rw [List.map_cons, List.nodup_cons] at hnd
    by_cases hk : kv.1 = k
    · have hv : v = kv.2 := by
        simp [alGet, hk] at h
        exact h.symm
      have hrest : ∀ kv' ∈ rest, kv'.1 ≠ k := by
        intro kv' hkv' he
        exact hnd.1 (by rw [hk, ← he]; exact List.mem_map_of_mem Prod.fst hkv')
      rw [hstep, set_many_get_not_mem hrest, hv, ← hk, alGet_alSet_self]
    · have h' : alGet rest k = some v := by
        simpa [alGet, hk] using h
      rw [hstep]
      exact ih hnd.2 h'

theorem mem_alSet {α : Type} {m : List (String × α)} {k : String} {v : α}
    {kv : String × α} (h : kv ∈ alSet m k v) : kv ∈ m ∨ kv = (k, v) := by
  unfold alSet at h
  by_cases hc : m.any (fun p => p.1 == k) = true
  · rw [if_pos hc] at h
    obtain ⟨p, hp, hfp⟩ := List.mem_map.mp h
    by_cases hpk : p.1 = k
    · right
      rw [← hfp]
      simp [hpk]
    · left
      rw [← hfp]
      simpa [hpk] using hp
  · rw [if_neg hc] at h
    rcases List.mem_append.mp h with hm | hone
    · exact Or.inl hm
    · exact Or.inr (by simpa using hone)

theorem alSet_keys_replace {α : Type} (m : List (String × α)) (k : String) (v : α) :
    ((m.map (fun p => if p.1 == k then (k, v) else p)).map Prod.fst) = m.map Prod.fst := by
  induction m with
  | nil => rfl
  | cons p rest ih =>
    by_cases hp : p.1 = k
    · simpa [hp] using ih
    · simpa [hp] using ih

theorem alSet_keys_nodup {α : Type} {m : List (String × α)} {k : String} {v : α}
    (h : (m.map Prod.fst).Nodup) : ((alSet m k v).map Prod.fst).Nodup := by
  unfold alSet
  by_cases hc : m.any (fun p => p.1 == k) = true
  · rw [if_pos hc, alSet_keys_replace]
    exact h
  · rw [if_neg hc]
    have hk : k ∉ m.map Prod.fst := by
      intro hmem
      obtain ⟨p, hp, hpk⟩ := List.mem_map.mp hmem
      exact hc (List.any_eq_true.mpr ⟨p, hp, by simp [hpk]⟩)
    rw [List.map_append]
    exact List.Nodup.append h (by simp) (by
      intro a ha hb
      simp at hb
      rw [hb] at ha
      exact hk ha)

theorem dict_of_tasks_snoc (ts : List Task) (t : Task) :
    dict_of_tasks (ts ++ [t]) = alSet (dict_of_tasks ts) t.id.value t := by
  unfold dict_of_tasks
  rw [List.foldl_append]
  rfl

theorem dict_of_tasks_keys {ts : List Task} {kv : String × Task}
    (h : kv ∈ dict_of_tasks ts) : kv.1 ∈ ts.map (fun t => t.id.value) := by
  induction ts using List.reverseRecOn with
  | nil => simp [dict_of_tasks] at h
  | append_singleton ts t ih =>
    rw [dict_of_tasks_snoc] at h
    rcases mem_alSet h with hm | he
    · have := ih hm
      simp only [List.map_append, List.mem_append]
      exact Or.inl this
    · simp [he]

theorem dict_of_tasks_keys_nodup (ts : List Task) :
    ((dict_of_tasks ts).map Prod.fst).Nodup := by
  induction ts using List.reverseRecOn with
  | nil => simp [dict_of_tasks]
  | append_singleton ts t ih =>
    rw [dict_of_tasks_snoc]
    exact alSet_keys_nodup ih

theorem dict_of_tasks_get {ts : List Task} {k : String}
    (h : k ∈ ts.map (fun t => t.id.value)) :
    ∃ t, t ∈ ts ∧ t.id.value = k ∧ alGet (dict_of_tasks ts) k = some t := by
  induction ts using List.reverseRecOn with
  | nil => simp at h
  | append_singleton ts t ih =>
    rw [dict_of_tasks_snoc]
    by_cases hk : t.id.value = k
    · refine ⟨t, by simp, hk, ?_⟩
      rw [← hk, alGet_alSet_self]
    · have h' : k ∈ ts.map (fun t => t.id.value) := by
        have h'' : k ∈ ts.map (fun t => t.id.value) ++ [t.id.value] := by
          simpa [List.map_append] using h
        rcases List.mem_append.mp h'' with hm | hone
        · exact hm
        · exact absurd ((by simpa using hone : k = t.id.value)).symm hk
      obtain ⟨t', ht', hk', hget⟩ := ih h'
      refine ⟨t', List.mem_append.mpr (Or.inl ht'), hk', ?_⟩
      rw [alGet_alSet_ne _ _ _ _ (fun he => hk he.symm), hget]

/-- C7: `sync_from_team` / `sync_from_personal` bulk-load the respective
repository and overwrite-merge it into the cache keyed by task id,
returning the count loaded; every cache entry whose key is not among the
listed tasks is left unchanged — in particular an entry for a task deleted
upstream stays in the cache. -/
theorem sync_from_repos_spec (s : SvcState) :
    (sync_from_team s).1 = s.team.length ∧
    (sync_from_personal s).1 = s.personal.length ∧
    (sync_from_team s).2.team = s.team ∧
    (sync_from_team s).2.personal = s.personal ∧
    (sync_from_personal s).2.team = s.team ∧
    (sync_from_personal s).2.personal = s.personal ∧
    (∀ k, k ∉ s.team.map (fun t => t.id.value) →
      alGet (sync_from_team s).2.cache k = alGet s.cache k) ∧
    (∀ k, k ∉ s.personal.map (fun t => t.id.value) →
      alGet (sync_from_personal s).2.cache k = alGet s.cache k) ∧
    (∀ k, k ∈ s.team.map (fun t => t.id.value) →
      ∃ t, t ∈ s.team ∧ t.id.value = k ∧
        alGet (sync_from_team s).2.cache k = some t) ∧
    (∀ k, k ∈ s.personal.map (fun t => t.id.value) →
      ∃ t, t ∈ s.personal ∧ t.id.value = k ∧
        alGet (sync_from_personal s).2.cache k = some t) := by
  refine ⟨rfl, rfl, rfl, rfl, rfl, rfl, ?_, ?_, ?_, ?_⟩
  · intro k hk
    exact set_many_get_not_mem (fun kv hkv he => hk (he ▸ dict_of_tasks_keys hkv))
  · intro k hk
    exact set_many_get_not_mem (fun kv hkv he => hk (he ▸ dict_of_tasks_keys hkv))
  · intro k hk
    obtain ⟨t, ht, hkt, hget⟩ := dict_of_tasks_get hk
    exact ⟨t, ht, hkt, set_many_get_mem (dict_of_tasks_keys_nodup _) hget⟩
  · intro k hk
    obtain ⟨t, ht, hkt, hget⟩ := dict_of_tasks_get hk
    exact ⟨t, ht, hkt, set_many_get_mem (dict_of_tasks_keys_nodup _) hget⟩

/-- Witness for C7: a cache entry for a task absent from the team
repository (deleted upstream) survives `sync_from_team`. -/
theorem sync_from_repos_spec_witness :
    alGet (sync_from_team ⟨[taskA], [], [("stale", taskDue)]⟩).2.cache "stale"
      = some taskDue := by
  have h := (sync_from_repos_spec ⟨[taskA], [], [("stale", taskDue)]⟩).2.2.2.2.2.2.1
    "stale" (by decide)
  rw [h]
  decide

/-! ### C5: cache/service coherence of the task service -/

/-- C5: `get_task` returns a cache hit immediately; on a miss it consults
the team repository then the personal repository, a hit from either
populates the cache before returning, and a total miss returns an empty
result; after `create_task` the created id is a cache hit equal to the
created value; after a successful `delete_task` the cache entry is
invalidated, so when the entity is gone from both repositories a subsequent
`get_task` is a total miss. -/
theorem task_service_read_through (s : SvcState) (tid : TaskId) (t : Task) (p : Bool) :
    (alGet s.cache tid.value = some t → get_task tid s = (some t, s, .cacheHit)) ∧
    (alGet s.cache tid.value = none → repo_get_by_id s.team tid = some t →
      get_task tid s = (some t, { s with cache := alSet s.cache tid.value t }, .teamHit)) ∧
    (alGet s.cache tid.value = none → repo_get_by_id s.team tid = none →
      repo_get_by_id s.personal tid = some t →
      get_task tid s =
        (some t, { s with cache := alSet s.cache tid.value t }, .personalHit)) ∧
    (alGet s.cache tid.value = none → repo_get_by_id s.team tid = none →
      repo_get_by_id s.personal tid = none → get_task tid s = (none, s, .miss)) ∧
    (∀ c s', create_task t p s = .ok (c, s') →
      c = t ∧ get_task c.id s' = (some c, s', .cacheHit)) ∧
    (∀ s', delete_task tid s = (true, s') →
      repo_get_by_id s'.team tid = none → repo_get_by_id s'.personal tid = none →
      alGet s'.cache tid.value = none ∧ get_task tid s' = (none, s', .miss)) := by
  refine ⟨?_, ?_, ?_, ?_, ?_, ?_⟩
  · intro h
    simp [get_task, h]
  · intro h1 h2
    simp [get_task, h1, h2]
  · intro h1 h2 h3
    simp [get_task, h1, h2, h3]
  · intro h1 h2 h3
    simp [get_task, h1, h2, h3]
  · intro c s' h
    cases p with
    | true =>
      by_cases hc : s.personal.any (fun d => d.id == t.id) = true
      · simp [create_task, repo_create, hc] at h
      · simp [create_task, repo_create, hc] at h
        obtain ⟨hct, hs'⟩ := h
        subst hct
        refine ⟨rfl, ?_⟩
        simp [get_task, ← hs', alGet_alSet_self]
    | false =>
      by_cases hc : s.team.any (fun d => d.id == t.id) = true
      · simp [create_task, repo_create, hc] at h
      · simp [create_task, repo_create, hc] at h
        obtain ⟨hct, hs'⟩ := h
        subst hct
        refine ⟨rfl, ?_⟩
        simp [get_task, ← hs', alGet_alSet_self]
  · intro s' h hteam hpers
    by_cases h1 : s.team.any (fun d => d.id == tid) = true
    · simp [delete_task, repo_delete, h1] at h
      have hcache : alGet s'.cache tid.value = none := by
        rw [← h]
        exact alGet_alRemove_self _ _
      exact ⟨hcache, by simp [get_task, hcache, hteam, hpers]⟩
    · by_cases h2 : s.personal.any (fun d => d.id == tid) = true
      · simp [delete_task, repo_delete, h1, h2] at h
        have hcache : alGet s'.cache tid.value = none := by
          rw [← h]
          exact alGet_alRemove_self _ _
        exact ⟨hcache, by simp [get_task, hcache, hteam, hpers]⟩
      · simp [delete_task, repo_delete, h1, h2] at h

/-- Witness for C5: after creating a task in the team repository of an
empty service state, reading it back is a cache hit equal to the created
value. -/
theorem task_service_read_through_witness :
    get_task taskA.id ⟨[taskA], [], [("a1", taskA)]⟩
      = (some taskA, ⟨[taskA], [], [("a1", taskA)]⟩, .cacheHit) :=
  (task_service_read_through ⟨[taskA], [], [("a1", taskA)]⟩ taskA.id taskA false).1
    (by decide)

/-! ### C4: skip-status behaviour -/

/-- Counterexample to C4 as stated: a source task whose status is in the
rule's `skip_statuses` but which does not pass the rule's filter is not
counted as skipped — the run reports `skipped = 0` although such a task is
present. -/
theorem skip_status_claim_counterexample :
    taskDoneBug.status ∈ ruleReview.skip_statuses ∧
    (execute_rule memEnv "team" dt0 ruleReview ⟨[taskDoneBug], []⟩ 0).1.skipped = 0 ∧
    (execute_rule memEnv "team" dt0 ruleReview ⟨[taskDoneBug], []⟩ 0).1.created = 0 ∧
    (execute_rule memEnv "team" dt0 ruleReview ⟨[taskDoneBug], []⟩ 0).1.updated = 0 := by
  decide

/-- C4 (amended): a source task whose status is in `skip_statuses` never
causes a destination write and never consumes an id, and when it passes the
rule's filter it is counted as skipped; the spec's concrete scenario
(A todo/review, B done/review, C todo/bug, rule filtering on tag review
with skip_statuses=[done]) reports created=1, skipped=1, errors=[] on the
first run. -/
theorem skip_status_behaviour :
    (∀ (σ : Type) (env : SyncEnv σ) (db : String) (now : DateTime) (rule : SyncRule)
      (synced : List (String × Task)) (t : Task) (acc : σ × Nat × SyncResult),
      t.status ∈ rule.skip_statuses →
        (stepTask env db now rule synced t acc).1 = acc.1 ∧
        (stepTask env db now rule synced t acc).2.1 = acc.2.1 ∧
        (rule.source_filter t = true →
          stepTask env db now rule synced t acc =
            (acc.1, acc.2.1, { acc.2.2 with skipped := acc.2.2.skipped + 1 }))) ∧
    (execute_rule memEnv "team" dt0 ruleReview ⟨[taskA, taskB, taskC], []⟩ 0).1 =
      { rule_name := "r", created := 1, updated := 0, skipped := 1, errors := [] } := by
  constructor
  · intro σ env db now rule synced t acc hskip
    by_cases hf : rule.source_filter t = true
    · refine ⟨?_, ?_, fun _ => ?_⟩ <;> simp [stepTask, hf, hskip]
    · have hf' : rule.source_filter t = false := by rwa [Bool.not_eq_true] at hf
      refine ⟨?_, ?_, fun hcontra => absurd hcontra hf⟩
      · simp [stepTask, hf']
      · simp [stepTask, hf']
  · decide

/-- Witness for C4's amended universal part: task B (done, passing the
filter) is counted as skipped and writes nothing. -/
theorem skip_status_behaviour_witness :
    stepTask memEnv "team" dt0 ruleReview [] taskB (⟨[taskB], []⟩, 0, initResult ruleReview)
      = (⟨[taskB], []⟩, 0,
         { rule_name := "r", created := 0, updated := 0, skipped := 1, errors := [] }) := by
  have h := (skip_status_behaviour.1 MemState memEnv "team" dt0 ruleReview [] taskB
    (⟨[taskB], []⟩, 0, initResult ruleReview) (by decide)).2.2 (by decide)
  simpa using h

/-! ### C3: error containment of the sync engine -/

theorem syncRules_length {σ : Type} (env : SyncEnv σ) (db : String) (now : DateTime) :
    ∀ (rules : List SyncRule) (st : σ) (n : Nat),
      ((syncRules env db now rules st n).1).length
        = (rules.filter (fun r => r.enabled)).length := by
  intro rules
  induction rules with
  | nil => intro st n; rfl
  | cons r rest ih =>
    intro st n
    by_cases hr : r.enabled = true
    · simp [syncRules, hr, List.filter_cons, ih]
    · have hr' : r.enabled = false := by rwa [Bool.not_eq_true] at hr
      simp [syncRules, hr', List.filter_cons, ih]

/-- C3: the sync engine channels all failure into `SyncResult.errors`
instead of raising.  `sync` always yields one result per enabled rule; a
failure while listing the source or the destination aborts only that rule,
with a single error entry and no state change; a repository failure while
processing one source task appends one error string and the loop continues
with the next task and an unchanged state; a rule whose listing failed does
not stop the remaining rules of the batch. -/
theorem sync_error_containment :
    ∀ (σ : Type) (env : SyncEnv σ) (db : String) (now : DateTime) (st : σ) (n : Nat),
    (∀ rules : List SyncRule,
      ((sync env db now rules none st n).1).length
        = (rules.filter (fun r => r.enabled)).length) ∧
    (∀ (rule : SyncRule) (e : String), env.listSource st = .error e →
      execute_rule env db now rule st n
        = ({ initResult rule with errors := [ruleErrMsg rule e] }, st, n)) ∧
    (∀ (rule : SyncRule) (e : String) (src : List Task),
      env.listSource st = .ok src → env.listDest st = .error e →
      execute_rule env db now rule st n
        = ({ initResult rule with errors := [ruleErrMsg rule e] }, st, n)) ∧
    (∀ (rule : SyncRule) (synced : List (String × Task)) (t : Task)
      (rest : List Task) (acc : σ × Nat × SyncResult) (e : String),
      rule.source_filter t = true → t.status ∉ rule.skip_statuses →
      lastLookup synced (sourceKey t) = none →
      env.createDest (mkNewTask db now acc.2.1 rule t) acc.1 = .error e →
      syncLoop env db now rule synced (t :: rest) acc
        = syncLoop env db now rule synced rest
            (acc.1, acc.2.1 + 1,
             { acc.2.2 with errors := acc.2.2.errors ++ [taskErrMsg t e] })) ∧
    (∀ (rule : SyncRule) (synced : List (String × Task)) (t d : Task)
      (rest : List Task) (acc : σ × Nat × SyncResult) (e : String),
      rule.source_filter t = true → t.status ∉ rule.skip_statuses →
      lastLookup synced (sourceKey t) = some d → rule.sync_updates = true →
      env.updateDest (mkUpdatedTask now rule t d) acc.1 = .error e →
      syncLoop env db now rule synced (t :: rest) acc
        = syncLoop env db now rule synced rest
            (acc.1, acc.2.1,
             { acc.2.2 with errors := acc.2.2.errors ++ [taskErrMsg t e] })) ∧
    (∀ (r : SyncRule) (rest : List SyncRule) (e : String),
      r.enabled = true → env.listSource st = .error e →
      sync env db now (r :: rest) none st n
        = ({ initResult r with errors := [ruleErrMsg r e] }
            :: (sync env db now rest none st n).1,
           (sync env db now rest none st n).2.1,
           (sync env db now rest none st n).2.2)) := by
  intro σ env db now st n
  refine ⟨?_, ?_, ?_, ?_, ?_, ?_⟩
  · intro rules
    exact syncRules_length env db now rules st n
  · intro rule e h
    simp [execute_rule, h]
  · intro rule e src h1 h2
    simp [execute_rule, h1, h2]
  · intro rule synced t rest acc e hf hskip hlook herr
    simp [syncLoop, stepTask, hf, hskip, hlook, herr]
  · intro rule synced t d rest acc e hf hskip hlook hsu herr
    simp [syncLoop, stepTask, hf, hskip, hlook, hsu, herr]
  · intro r rest e hr herr
    simp [sync, syncRules, hr, execute_rule, herr]

/-- A repository environment whose source listing always raises, used to
witness rule-level containment. -/
def failEnv : SyncEnv Unit where
  listSource := fun _ => .error "boom"
  listDest := fun _ => .ok []
  createDest := fun _ _ => .ok ()
  updateDest := fun _ _ => .ok ()

/-- Witness for C3: against `failEnv` the rule aborts with exactly one
error entry, an unchanged state, and the batch goes on. -/
theorem sync_error_containment_witness :
    execute_rule failEnv "team" dt0 ruleReview () 0
      = ({ initResult ruleReview with errors := [ruleErrMsg ruleReview "boom"] }, (), 0) :=
  (sync_error_containment Unit failEnv "team" dt0 () 0).2.1 ruleReview "boom" rfl

/-! ### C1 and C2: provenance machinery

The idempotence and no-duplication arguments both rest on facts about the
provenance index: an entry looked up in the index is a destination task
carrying the matching metadata, a destination task carrying such metadata
is found by the lookup, and the per-task loop of `_execute_rule` preserves
these facts run over run. -/

/-- A provenance key is present in the index built over `dst`. -/
def HasKey (db : String) (dst : List Task) (k : String) : Prop :=
  ∃ d, lastLookup (syncedEntries db dst) k = some d

/-- Whether a source task passes the rule's filter and escapes the skip
set — exactly the tasks `_execute_rule` writes for. -/
def ruleMatches (rule : SyncRule) (t : Task) : Bool :=
  rule.source_filter t && !(decide (t.status ∈ rule.skip_statuses))

theorem lastLookup_mem {es : List (String × Task)} {k : String} {v : Task}
    (h : lastLookup es k = some v) : (k, v) ∈ es := by
  induction es with
  | nil => simp [lastLookup] at h
  | cons e rest ih =>
    obtain ⟨k', v'⟩ := e
    cases hrest : lastLookup rest k with
    | some r =>
      rw [lastLookup, hrest] at h
      have : r = v := by simpa using h
      exact List.mem_cons_of_mem _ (ih (this ▸ hrest))
    | none =>
      rw [lastLookup, hrest] at h
      by_cases hk : k' = k
      · rw [if_pos hk] at h
        have : v' = v := by simpa using h
        rw [← hk, ← this]
        exact List.mem_cons_self _ _
      · rw [if_neg hk] at h
        simp at h

theorem lastLookup_isSome_of_mem {es : List (String × Task)} {k : String}
    {v : Task} (h : (k, v) ∈ es) : ∃ w, lastLookup es k = some w := by
  induction es with
  | nil => simp at h
  | cons e rest ih =>
    obtain ⟨k', v'⟩ := e
    rcases List.mem_cons.mp h with he | hr
    · obtain ⟨hk, hv⟩ := Prod.mk.injEq .. ▸ he
      cases hrest : lastLookup rest k with
      | some r => exact ⟨r, by rw [lastLookup, hrest]⟩
      | none => exact ⟨v', by rw [lastLookup, hrest, if_pos hk.symm]⟩
    · obtain ⟨w, hw⟩ := ih hr
      exact ⟨w, by rw [lastLookup, hw]⟩

theorem mem_syncedEntries {db : String} {dst : List Task} {k : String} {d : Task}
    (h : (k, d) ∈ syncedEntries db dst) :
    d ∈ dst ∧ alGet d.metadata SYNC_SOURCE_KEY = some k ∧ k ≠ "" ∧
      alGet d.metadata SYNC_SOURCE_DB_KEY = some db := by
  obtain ⟨a, ha, hae⟩ := List.mem_filterMap.mp h
  unfold taskEntry at hae
  cases hsid : alGet a.metadata SYNC_SOURCE_KEY with
  | none => rw [hsid] at hae; simp at hae
  | some sid =>
    rw [hsid] at hae
    dsimp only at hae
    by_cases hempty : sid = ""
    · rw [if_pos hempty] at hae
      simp at hae
    · rw [if_neg hempty] at hae
      by_cases hdb : alGet a.metadata SYNC_SOURCE_DB_KEY = some db
      · rw [if_pos hdb] at hae
        have hsk : sid = k ∧ a = d := by simpa using hae
        obtain ⟨hsk, had⟩ := hsk
        subst hsk
        subst had
        exact ⟨ha, hsid, hempty, hdb⟩
      · rw [if_neg hdb] at hae
        simp at hae

theorem hasKey_of_mem {db : String} {dst : List Task} {k : String} {d : Task}
    (hd : d ∈ dst) (h1 : alGet d.metadata SYNC_SOURCE_KEY = some k) (h2 : k ≠ "")
    (h3 : alGet d.metadata SYNC_SOURCE_DB_KEY = some db) : HasKey db dst k := by
  have hent : (k, d) ∈ syncedEntries db dst := by
    apply List.mem_filterMap.mpr
    refine ⟨d, hd, ?_⟩
    unfold taskEntry
    rw [h1]
    dsimp only
    rw [if_neg h2, if_pos h3]
  obtain ⟨w, hw⟩ := lastLookup_isSome_of_mem hent
  exact ⟨w, hw⟩

/-- The invariant the per-task loop maintains over the destination store:
generated ids ahead of the counter are fresh, ids are unique (the store is
a `dict`), and each task of the pre-run destination `dst0` is still present
with its id and metadata intact (updates only touch the mutable fields). -/
structure DstInv (db : String) (dst0 dst : List Task) (n : Nat) : Prop where
  fresh : ∀ d ∈ dst, ∀ k, n ≤ k → d.id.value ≠ genId k
  nodup : (dst.map (fun d => d.id)).Nodup
  orig : ∀ d0 ∈ dst0, ∃ d ∈ dst, d.id = d0.id ∧ d.metadata = d0.metadata

theorem hasKey_orig {db : String} {dst0 dst : List Task}
    (horig : ∀ d0 ∈ dst0, ∃ d ∈ dst, d.id = d0.id ∧ d.metadata = d0.metadata)
    {k : String} (h : HasKey db dst0 k) : HasKey db dst k := by
  obtain ⟨v, hv⟩ := h
  obtain ⟨hd0, h1, h2, h3⟩ := mem_syncedEntries (lastLookup_mem hv)
  obtain ⟨d, hd, _, hmeta⟩ := horig v hd0
  exact hasKey_of_mem hd (hmeta ▸ h1) h2 (hmeta ▸ h3)

theorem ids_map_update (dst : List Task) (u : Task) :
    ((dst.map (fun d => if d.id == u.id then u else d)).map (fun d => d.id))
      = dst.map (fun d => d.id) := by
  induction dst with
  | nil => rfl
  | cons d rest ih =>
    by_cases hd : d.id = u.id
    · simp only [List.map_cons, ih]
      simp [hd]
    · simp only [List.map_cons, ih]
      simp [hd]

theorem mem_map_update {dst : List Task} {u d' : Task}
    (h : d' ∈ dst.map (fun d => if d.id == u.id then u else d)) :
    ∃ d ∈ dst, (d.id = u.id ∧ d' = u) ∨ (d' = d) := by
  obtain ⟨d, hd, hfd⟩ := List.mem_map.mp h
  by_cases hid : d.id = u.id
  · exact ⟨d, hd, Or.inl ⟨hid, by simpa [hid] using hfd.symm⟩⟩
  · exact ⟨d, hd, Or.inr (by simpa [hid] using hfd.symm)⟩

/-- `HasKey` survives an update that preserves the metadata of whatever
entry it replaces. -/
theorem hasKey_map_update {db : String} {dst : List Task} {u : Task} {k : String}
    (hpres : ∀ d ∈ dst, d.id = u.id → d.metadata = u.metadata)
    (h : HasKey db dst k) :
    HasKey db (dst.map (fun d => if d.id == u.id then u else d)) k := by
  obtain ⟨v, hv⟩ := h
  obtain ⟨hd, h1, h2, h3⟩ := mem_syncedEntries (lastLookup_mem hv)
  by_cases hid : v.id = u.id
  · have hmeta := hpres v hd hid
    have hu : u ∈ dst.map (fun d => if d.id == u.id then u else d) := by
      apply List.mem_map.mpr
      exact ⟨v, hd, by simp [hid]⟩
    exact hasKey_of_mem hu (hmeta ▸ h1) h2 (hmeta ▸ h3)
  · have hvmem : v ∈ dst.map (fun d => if d.id == u.id then u else d) := by
      apply List.mem_map.mpr
      exact ⟨v, hd, by simp [hid]⟩
    exact hasKey_of_mem hvmem h1 h2 h3

theorem syncedEntries_append (db : String) (dst : List Task) (t : Task) :
    syncedEntries db (dst ++ [t])
      = syncedEntries db dst ++ (taskEntry db t).toList := by
  unfold syncedEntries
  rw [List.filterMap_append]
  cases h : taskEntry db t with
  | none => simp [List.filterMap, h]
  | some e => simp [List.filterMap, h]

theorem lastLookup_append (es fs : List (String × Task)) (k : String) :
    lastLookup (es ++ fs) k
      = match lastLookup fs k with
        | some v => some v
        | none => lastLookup es k := by
  induction es with
  | nil =>
    cases h : lastLookup fs k with
    | some v => simp [h]
    | none => simp [h, lastLookup]
  | cons e rest ih =>
    obtain ⟨k', v'⟩ := e
    rw [List.cons_append, lastLookup, ih]
    cases h : lastLookup fs k with
    | some v => simp
    | none => simp [lastLookup]

theorem hasKey_append {db : String} {dst : List Task} {t : Task} {k : String}
    (h : HasKey db dst k) : HasKey db (dst ++ [t]) k := by
  obtain ⟨v, hv⟩ := h
  rw [HasKey, syncedEntries_append, lastLookup_append]
  cases hl : lastLookup (taskEntry db t).toList k with
  | some w => exact ⟨w, by simp [hl]⟩
  | none => exact ⟨v, by simp [hl, hv]⟩

theorem metadata_mkNewTask_key (db : String) (now : DateTime) (n : Nat)
    (rule : SyncRule) (t : Task) :
    alGet (mkNewTask db now n rule t).metadata SYNC_SOURCE_KEY = some (sourceKey t) := by
  show alGet (alSet (alSet (applyMapper rule t).metadata SYNC_SOURCE_KEY
    (sourceKey t)) SYNC_SOURCE_DB_KEY db) SYNC_SOURCE_KEY = some (sourceKey t)
  rw [alGet_alSet_ne _ _ _ _ (by decide), alGet_alSet_self]

theorem metadata_mkNewTask_db (db : String) (now : DateTime) (n : Nat)
    (rule : SyncRule) (t : Task) :
    alGet (mkNewTask db now n rule t).metadata SYNC_SOURCE_DB_KEY = some db :=
  alGet_alSet_self _ _ _

/-- One step of the per-task loop against the in-memory destination: under
the destination invariant the step never fails, preserves the invariant and
every present provenance key, and leaves the matching task's key present. -/
theorem stepTask_mem_run (db : String) (now : DateTime) (rule : SyncRule)
    (dst0 : List Task)
    (t : Task) (sl dst : List Task) (n : Nat) (res : SyncResult)
    (hkey : sourceKey t ≠ "") (inv : DstInv db dst0 dst n) :
    ∃ dst' n' res',
      stepTask memEnv db now rule (syncedEntries db dst0) t (⟨sl, dst⟩, n, res)
        = (⟨sl, dst'⟩, n', res') ∧
      DstInv db dst0 dst' n' ∧ n ≤ n' ∧
      (∀ k, HasKey db dst k → HasKey db dst' k) ∧
      (ruleMatches rule t = true → HasKey db dst' (sourceKey t)) ∧
      (dst' = dst ∨
        (∃ u : Task, (∀ d ∈ dst, d.id = u.id → d.metadata = u.metadata) ∧
          dst' = dst.map (fun d => if d.id == u.id then u else d)) ∨
        (lastLookup (syncedEntries db dst0) (sourceKey t) = none ∧
          dst' = dst ++ [mkNewTask db now n rule t])) := by
  by_cases hf : rule.source_filter t = true
  case neg =>
    have hf' : rule.source_filter t = false := by rwa [Bool.not_eq_true] at hf
    refine ⟨dst, n, res, ?_, inv, Nat.le_refl n, fun k h => h, ?_, Or.inl rfl⟩
    · simp [stepTask, hf']
    · intro hm
      rw [ruleMatches, hf'] at hm
      simp at hm
  case pos =>
  by_cases hskip : t.status ∈ rule.skip_statuses
  case pos =>
    refine ⟨dst, n, { res with skipped := res.skipped + 1 }, ?_, inv,
      Nat.le_refl n, fun k h => h, ?_, Or.inl rfl⟩
    · simp [stepTask, hf, hskip]
    · intro hm
      rw [ruleMatches, hf] at hm
      simp [hskip] at hm
  case neg =>
  cases hlook : lastLookup (syncedEntries db dst0) (sourceKey t) with
  | some destTask =>
    have hkd : HasKey db dst (sourceKey t) := hasKey_orig inv.orig ⟨destTask, hlook⟩
    obtain ⟨hdmem, hm1, hm2, hm3⟩ := mem_syncedEntries (lastLookup_mem hlook)
    by_cases hsu : rule.sync_updates = true
    case pos =>
      have huid : (mkUpdatedTask now rule t destTask).id = destTask.id := rfl
      have humeta : (mkUpdatedTask now rule t destTask).metadata = destTask.metadata := rfl
      obtain ⟨dd, hdd, hddid, hddmeta⟩ := inv.orig destTask hdmem
      have hex : ∃ x ∈ dst, x.id = (mkUpdatedTask now rule t destTask).id :=
        ⟨dd, hdd, by rw [hddid, huid]⟩
      have hpres : ∀ d ∈ dst, d.id = (mkUpdatedTask now rule t destTask).id →
          d.metadata = (mkUpdatedTask now rule t destTask).metadata := by
        intro d hdm hid
        have hddu : d = dd := List.inj_on_of_nodup_map inv.nodup hdm hdd
          (by rw [hid, huid, hddid])
        rw [hddu, hddmeta, humeta]
      refine ⟨dst.map (fun d => if d.id == (mkUpdatedTask now rule t destTask).id
          then mkUpdatedTask now rule t destTask else d), n,
        { res with updated := res.updated + 1 }, ?_, ?_, Nat.le_refl n, ?_, ?_,
        Or.inr (Or.inl ⟨mkUpdatedTask now rule t destTask, hpres, rfl⟩)⟩
      · simp [stepTask, hf, hskip, hlook, hsu, memEnv, repo_update, hex]
      · constructor
        · intro d' hd' k hk
          obtain ⟨d, hd, hcase⟩ := mem_map_update hd'
          rcases hcase with ⟨hid, rfl⟩ | rfl
          · have : (mkUpdatedTask now rule t destTask).id.value = dd.id.value := by
              rw [huid, hddid]
            rw [this]
            exact inv.fresh dd hdd k hk
          · exact inv.fresh _ hd k hk
        · rw [ids_map_update]
          exact inv.nodup
        · intro d0 hd0
          obtain ⟨d, hd, hdid, hdmeta⟩ := inv.orig d0 hd0
          by_cases hid : d.id = (mkUpdatedTask now rule t destTask).id
          · refine ⟨mkUpdatedTask now rule t destTask, ?_, ?_, ?_⟩
            · exact List.mem_map.mpr ⟨d, hd, by simp [hid]⟩
            · rw [← hid, hdid]
            · rw [humeta, ← hddmeta]
              have hddu : d = dd := List.inj_on_of_nodup_map inv.nodup hd hdd
                (by rw [hid, huid, hddid])
              rw [← hddu, hdmeta]
          · exact ⟨d, List.mem_map.mpr ⟨d, hd, by simp [hid]⟩, hdid, hdmeta⟩
      · intro k hk
        exact hasKey_map_update hpres hk
      · intro _
        exact hasKey_map_update hpres hkd
    case neg =>
      have hsu' : rule.sync_updates = false := by rwa [Bool.not_eq_true] at hsu
      refine ⟨dst, n, { res with skipped := res.skipped + 1 }, ?_, inv,
        Nat.le_refl n, fun k h => h, fun _ => hkd, Or.inl rfl⟩
      simp [stepTask, hf, hskip, hlook, hsu']
  | none =>
    have hnex : ¬∃ x ∈ dst, x.id = (mkNewTask db now n rule t).id := by
      rintro ⟨d, hd, hdid⟩
      exact inv.fresh d hd n (Nat.le_refl n) (congrArg TaskId.value hdid)
    refine ⟨dst ++ [mkNewTask db now n rule t], n + 1,
      { res with created := res.created + 1 }, ?_, ?_, Nat.le_succ n, ?_, ?_,
      Or.inr (Or.inr ⟨rfl, rfl⟩)⟩
    · simp [stepTask, hf, hskip, hlook, memEnv, repo_create, hnex]
    · constructor
      · intro d hd k hk
        rcases List.mem_append.mp hd with hdm | hone
        · exact inv.fresh d hdm k (Nat.le_of_succ_le hk)
        · have hdn : d = mkNewTask db now n rule t := by simpa using hone
          have hval : (mkNewTask db now n rule t).id.value = genId n := rfl
          rw [hdn, hval]
          intro hcontra
          exact absurd (genId_inj hcontra) (by omega)
      · rw [List.map_append]
        refine List.Nodup.append inv.nodup (by simp) ?_
        intro a ha hb
        simp only [List.map_cons, List.map_nil, List.mem_singleton] at hb
        obtain ⟨d, hd, hdid⟩ := List.mem_map.mp ha
        exact inv.fresh d hd n (Nat.le_refl n) (by rw [hdid, hb]; rfl)
      · intro d0 hd0
        obtain ⟨d, hd, hdid, hdmeta⟩ := inv.orig d0 hd0
        exact ⟨d, List.mem_append.mpr (Or.inl hd), hdid, hdmeta⟩
    · intro k hk
      exact hasKey_append hk
    · intro _
      exact hasKey_of_mem (List.mem_append.mpr (Or.inr (by simp)))
        (metadata_mkNewTask_key db now n rule t) hkey
        (metadata_mkNewTask_db db now n rule t)

/-- The whole per-task loop against the in-memory destination: invariant
preservation plus the presence, afterwards, of every matching task's
provenance key. -/
theorem syncLoop_mem_run (db : String) (now : DateTime) (rule : SyncRule)
    (dst0 : List Task) :
    ∀ (src sl dst : List Task) (n : Nat) (res : SyncResult),
    (∀ t ∈ src, sourceKey t ≠ "") →
    DstInv db dst0 dst n →
    ∃ dst' n' res',
      syncLoop memEnv db now rule (syncedEntries db dst0) src (⟨sl, dst⟩, n, res)
        = (⟨sl, dst'⟩, n', res') ∧
      DstInv db dst0 dst' n' ∧ n ≤ n' ∧
      (∀ k, HasKey db dst k → HasKey db dst' k) ∧
      (∀ t ∈ src, ruleMatches rule t = true → HasKey db dst' (sourceKey t)) := by
  intro src
  induction src with
  | nil =>
    intro sl dst n res _ inv
    exact ⟨dst, n, res, rfl, inv, Nat.le_refl n, fun k h => h, by simp⟩
  | cons t rest ih =>
    intro sl dst n res hkeys inv
    obtain ⟨dst1, n1, res1, hstep, inv1, hn1, hmono1, hkey1, _⟩ :=
      stepTask_mem_run db now rule dst0 t sl dst n res
        (hkeys t (List.mem_cons_self _ _)) inv
    obtain ⟨dst', n', res', hloop, inv', hn', hmono', hkeys'⟩ :=
      ih sl dst1 n1 res1 (fun t' ht' => hkeys t' (List.mem_cons_of_mem _ ht')) inv1
    refine ⟨dst', n', res', ?_, inv', Nat.le_trans hn1 hn',
      fun k hk => hmono' k (hmono1 k hk), ?_⟩
    · rw [syncLoop, hstep, hloop]
    · intro t' ht' hm
      rcases List.mem_cons.mp ht' with rfl | htr
      · exact hmono' _ (hkey1 hm)
      · exact hkeys' t' htr hm

/-- One full `_execute_rule` run against the in-memory repositories: the
source is untouched, the destination invariant holds afterwards, and every
matching source task's provenance key is present in the destination. -/
theorem execute_rule_mem_run (db : String) (now : DateTime) (rule : SyncRule)
    (sl dst : List Task) (n : Nat)
    (hkeys : ∀ t ∈ sl, sourceKey t ≠ "")
    (hfresh : ∀ d ∈ dst, ∀ k, n ≤ k → d.id.value ≠ genId k)
    (hnodup : (dst.map (fun d => d.id)).Nodup) :
    ∃ res1 dst1 n1,
      execute_rule memEnv db now rule ⟨sl, dst⟩ n = (res1, ⟨sl, dst1⟩, n1) ∧
      DstInv db dst dst1 n1 ∧ n ≤ n1 ∧
      (∀ t ∈ sl, ruleMatches rule t = true → HasKey db dst1 (sourceKey t)) := by
  have inv0 : DstInv db dst dst n := ⟨hfresh, hnodup, fun d0 h => ⟨d0, h, rfl, rfl⟩⟩
  obtain ⟨dst1, n1, res1, hloop, inv1, hn, _, hkeys'⟩ :=
    syncLoop_mem_run db now rule dst sl sl dst n (initResult rule) hkeys inv0
  refine ⟨res1, dst1, n1, ?_, inv1, hn, hkeys'⟩
  have h1 : memEnv.listSource (⟨sl, dst⟩ : MemState) = .ok sl := rfl
  have h2 : memEnv.listDest (⟨sl, dst⟩ : MemState) = .ok dst := rfl
  simp only [execute_rule, h1, h2]
  rw [hloop]

/-- The per-task loop when every matching source task's key is already in
the snapshot the loop was given: nothing is created, and with
`sync_updates` every matching task is updated. -/
theorem syncLoop_all_synced (db : String) (now : DateTime) (rule : SyncRule)
    (dstL : List Task) :
    ∀ (src sl dst : List Task) (n : Nat) (res : SyncResult),
    (∀ t ∈ src, ruleMatches rule t = true → HasKey db dstL (sourceKey t)) →
    (∀ d ∈ dstL, ∃ d' ∈ dst, d'.id = d.id) →
    ∃ dst' n' res',
      syncLoop memEnv db now rule (syncedEntries db dstL) src (⟨sl, dst⟩, n, res)
        = (⟨sl, dst'⟩, n', res') ∧
      res'.created = res.created ∧
      res'.updated = res.updated +
        (if rule.sync_updates then (src.filter (fun t => ruleMatches rule t)).length
         else 0) := by
  intro src
  induction src with
  | nil =>
    intro sl dst n res _ _
    exact ⟨dst, n, res, rfl, rfl, by simp⟩
  | cons t rest ih =>
    intro sl dst n res hks hsub
    by_cases hf : rule.source_filter t = true
    case neg =>
      have hf' : rule.source_filter t = false := by rwa [Bool.not_eq_true] at hf
      have hmr : ruleMatches rule t = false := by simp [ruleMatches, hf']
      obtain ⟨dst', n', res', hloop, hc, hu⟩ :=
        ih sl dst n res (fun t' ht' => hks t' (List.mem_cons_of_mem _ ht')) hsub
      refine ⟨dst', n', res', ?_, hc, ?_⟩
      · rw [syncLoop]
        have hstep : stepTask memEnv db now rule (syncedEntries db dstL) t
            (⟨sl, dst⟩, n, res) = (⟨sl, dst⟩, n, res) := by
          simp [stepTask, hf']
        rw [hstep, hloop]
      · rw [hu]
        cases hsu' : rule.sync_updates <;> simp [List.filter_cons, hmr]
    case pos =>
    by_cases hskip : t.status ∈ rule.skip_statuses
    case pos =>
      have hmr : ruleMatches rule t = false := by simp [ruleMatches, hf, hskip]
      obtain ⟨dst', n', res', hloop, hc, hu⟩ :=
        ih sl dst n { res with skipped := res.skipped + 1 }
          (fun t' ht' => hks t' (List.mem_cons_of_mem _ ht')) hsub
      refine ⟨dst', n', res', ?_, hc, ?_⟩
      · rw [syncLoop]
        have hstep : stepTask memEnv db now rule (syncedEntries db dstL) t
            (⟨sl, dst⟩, n, res) = (⟨sl, dst⟩, n, { res with skipped := res.skipped + 1 }) := by
          simp [stepTask, hf, hskip]
        rw [hstep, hloop]
      · rw [hu]
        cases hsu' : rule.sync_updates <;> simp [List.filter_cons, hmr]
    case neg =>
      have hmr : ruleMatches rule t = true := by simp [ruleMatches, hf, hskip]
      obtain ⟨destTask, hlook⟩ := hks t (List.mem_cons_self _ _) hmr
      obtain ⟨hdmem, _, _, _⟩ := mem_syncedEntries (lastLookup_mem hlook)
      obtain ⟨e, he, heid⟩ := hsub destTask hdmem
      by_cases hsu : rule.sync_updates = true
      case pos =>
        have hex : ∃ x ∈ dst, x.id = (mkUpdatedTask now rule t destTask).id :=
          ⟨e, he, by rw [heid]; rfl⟩
        have hsub' : ∀ d0 ∈ dstL,
            ∃ d'' ∈ dst.map (fun d => if d.id == (mkUpdatedTask now rule t destTask).id
              then mkUpdatedTask now rule t destTask else d), d''.id = d0.id := by
          intro d0 hd0
          obtain ⟨e', he', he'id⟩ := hsub d0 hd0
          by_cases hid : e'.id = (mkUpdatedTask now rule t destTask).id
          · refine ⟨mkUpdatedTask now rule t destTask,
              List.mem_map.mpr ⟨e', he', by simp [hid]⟩, ?_⟩
            rw [← hid, he'id]
          · exact ⟨e', List.mem_map.mpr ⟨e', he', by simp [hid]⟩, he'id⟩
        obtain ⟨dst', n', res', hloop, hc, hu⟩ :=
          ih sl _ n { res with updated := res.updated + 1 }
            (fun t' ht' => hks t' (List.mem_cons_of_mem _ ht')) hsub'
        refine ⟨dst', n', res', ?_, hc, ?_⟩
        · rw [syncLoop]
          have hstep : stepTask memEnv db now rule (syncedEntries db dstL) t
              (⟨sl, dst⟩, n, res)
              = (⟨sl, dst.map (fun d => if d.id == (mkUpdatedTask now rule t destTask).id
                  then mkUpdatedTask now rule t destTask else d)⟩, n,
                 { res with updated := res.updated + 1 }) := by
            simp [stepTask, hf, hskip, hlook, hsu, memEnv, repo_update, hex]
          rw [hstep, hloop]
        · rw [hu]
          simp [hsu, List.filter_cons, hmr]
          omega
      case neg =>
        have hsu' : rule.sync_updates = false := by rwa [Bool.not_eq_true] at hsu
        obtain ⟨dst', n', res', hloop, hc, hu⟩ :=
          ih sl dst n { res with skipped := res.skipped + 1 }
            (fun t' ht' => hks t' (List.mem_cons_of_mem _ ht')) hsub
        refine ⟨dst', n', res', ?_, hc, ?_⟩
        · rw [syncLoop]
          have hstep : stepTask memEnv db now rule (syncedEntries db dstL) t
              (⟨sl, dst⟩, n, res)
              = (⟨sl, dst⟩, n, { res with skipped := res.skipped + 1 }) := by
            simp [stepTask, hf, hskip, hlook, hsu']
          rw [hstep, hloop]
        · rw [hu]
          simp [hsu']

/-- C1: running the same rule twice against a source and destination that
are unchanged between runs (apart from the first run's own writes) produces
zero created on the second run, and the second run's updated count is zero
for `sync_updates = false` and the number of source tasks passing the
filter and escaping the skip set for `sync_updates = true`.  The
hypotheses state the representation invariants of the real stores: every
source task has a non-empty provenance key (ids and external ids are never
empty strings), generated uuids are fresh for the destination, and the
destination ids are unique (it is a dict keyed by id). -/
theorem sync_rule_idempotent (rule : SyncRule) (db : String)
    (now1 now2 : DateTime) (src dst : List Task) (n : Nat)
    (hkeys : ∀ t ∈ src, sourceKey t ≠ "")
    (hfresh : ∀ d ∈ dst, ∀ k, n ≤ k → d.id.value ≠ genId k)
    (hnodup : (dst.map (fun d => d.id)).Nodup) :
    ((execute_rule memEnv db now2 rule
        (execute_rule memEnv db now1 rule ⟨src, dst⟩ n).2.1
        (execute_rule memEnv db now1 rule ⟨src, dst⟩ n).2.2).1).created = 0 ∧
    ((execute_rule memEnv db now2 rule
        (execute_rule memEnv db now1 rule ⟨src, dst⟩ n).2.1
        (execute_rule memEnv db now1 rule ⟨src, dst⟩ n).2.2).1).updated =
      (if rule.sync_updates then (src.filter (fun t => ruleMatches rule t)).length
       else 0) := by
  obtain ⟨res1, dst1, n1, hrun1, inv1, hn1, hkeys1⟩ :=
    execute_rule_mem_run db now1 rule src dst n hkeys hfresh hnodup
  rw [hrun1]
  obtain ⟨dst2, n2, res2, hloop2, hc2, hu2⟩ :=
    syncLoop_all_synced db now2 rule dst1 src src dst1 n1 (initResult rule)
      (fun t ht hm => hkeys1 t ht hm) (fun d hd => ⟨d, hd, rfl⟩)
  have hrun2 : execute_rule memEnv db now2 rule ⟨src, dst1⟩ n1 = (res2, ⟨src, dst2⟩, n2) := by
    have h1 : memEnv.listSource (⟨src, dst1⟩ : MemState) = .ok src := rfl
    have h2 : memEnv.listDest (⟨src, dst1⟩ : MemState) = .ok dst1 := rfl
    simp only [execute_rule, h1, h2]
    rw [hloop2]
  rw [hrun2]
  refine ⟨by simpa [initResult] using hc2, by simpa [initResult] using hu2⟩

/-- The destination tasks whose metadata carries the provenance pair
`(sync_source_id = k, sync_source_db = db)`. -/
def provClass (db k : String) (dst : List Task) : List Task :=
  dst.filter (fun d => alGet d.metadata SYNC_SOURCE_KEY == some k &&
    alGet d.metadata SYNC_SOURCE_DB_KEY == some db)

/-- At most one destination task exists per non-empty provenance key. -/
def ProvUnique (db : String) (dst : List Task) : Prop :=
  ∀ k, k ≠ "" → (provClass db k dst).length ≤ 1

theorem provClass_eq_nil_of_not_hasKey {db : String} {dst : List Task}
    {k : String} (hk : k ≠ "") (h : ¬HasKey db dst k) :
    provClass db k dst = [] := by
  rw [provClass, List.filter_eq_nil_iff]
  intro d hd hpred
  rw [Bool.and_eq_true, beq_iff_eq, beq_iff_eq] at hpred
  exact h (hasKey_of_mem hd hpred.1 hk hpred.2)

theorem provClass_map_update_length {db k : String} {dst : List Task} {u : Task}
    (hpres : ∀ d ∈ dst, d.id = u.id → d.metadata = u.metadata) :
    (provClass db k (dst.map (fun d => if d.id == u.id then u else d))).length
      = (provClass db k dst).length := by
  rw [provClass, provClass, List.filter_map, List.length_map]
  congr 1
  apply List.filter_congr
  intro d hd
  by_cases hid : d.id = u.id
  · have hm := hpres d hd hid
    simp [Function.comp, hid, ← hm]
  · simp [Function.comp, hid]

theorem provClass_append_single (db k : String) (dst : List Task) (t : Task) :
    provClass db k (dst ++ [t]) = provClass db k dst ++ provClass db k [t] := by
  rw [provClass, provClass, provClass, List.filter_append]

theorem provClass_single_new (db : String) (now : DateTime) (n : Nat)
    (rule : SyncRule) (t : Task) (k : String) :
    provClass db k [mkNewTask db now n rule t]
      = if sourceKey t = k then [mkNewTask db now n rule t] else [] := by
  rw [provClass]
  by_cases h : sourceKey t = k
  · simp [List.filter, metadata_mkNewTask_key, metadata_mkNewTask_db, h]
  · have hb : (sourceKey t == k) = false := beq_eq_false_iff_ne.mpr h
    simp [List.filter, metadata_mkNewTask_key, metadata_mkNewTask_db, h, hb]

/-- The per-task loop preserves provenance uniqueness: only keys absent
from the snapshot are created, at most once each thanks to the distinct
source keys. -/
theorem syncLoop_prov (db : String) (now : DateTime) (rule : SyncRule)
    (dst0 : List Task) :
    ∀ (src sl dst : List Task) (n : Nat) (res : SyncResult),
    (∀ t ∈ src, sourceKey t ≠ "") →
    (src.map sourceKey).Nodup →
    DstInv db dst0 dst n →
    ProvUnique db dst →
    (∀ t ∈ src, ¬HasKey db dst0 (sourceKey t) → provClass db (sourceKey t) dst = []) →
    ∃ dst' n' res',
      syncLoop memEnv db now rule (syncedEntries db dst0) src (⟨sl, dst⟩, n, res)
        = (⟨sl, dst'⟩, n', res') ∧
      DstInv db dst0 dst' n' ∧ n ≤ n' ∧ ProvUnique db dst' := by
  intro src
  induction src with
  | nil =>
    intro sl dst n res _ _ inv hprov _
    exact ⟨dst, n, res, rfl, inv, Nat.le_refl n, hprov⟩
  | cons t rest ih =>
    intro sl dst n res hkeys hsnd inv hprov hnew
    obtain ⟨dst1, n1, res1, hstep, inv1, hn1, _, _, hcase⟩ :=
      stepTask_mem_run db now rule dst0 t sl dst n res
        (hkeys t (List.mem_cons_self _ _)) inv
    have hkt : sourceKey t ≠ "" := hkeys t (List.mem_cons_self _ _)
    rw [List.map_cons, List.nodup_cons] at hsnd
    have hprov1 : ProvUnique db dst1 := by
      rcases hcase with rfl | ⟨u, hpres, rfl⟩ | ⟨hlook, rfl⟩
      · exact hprov
      · intro k hk
        rw [provClass_map_update_length hpres]
        exact hprov k hk
      · intro k hk
        rw [provClass_append_single, List.length_append, provClass_single_new]
        by_cases hkk : sourceKey t = k
        · have hnk : ¬HasKey db dst0 (sourceKey t) := by
            intro ⟨w, hw⟩
            rw [hw] at hlook
            exact absurd hlook (by simp)
          have := hnew t (List.mem_cons_self _ _) hnk
          rw [hkk] at this
          rw [this, hkk]
          simp
        · rw [if_neg hkk]
          simpa using hprov k hk
    have hnew1 : ∀ t' ∈ rest, ¬HasKey db dst0 (sourceKey t') →
        provClass db (sourceKey t') dst1 = [] := by
      intro t' ht' hnk
      have hbase := hnew t' (List.mem_cons_of_mem _ ht') hnk
      rcases hcase with rfl | ⟨u, hpres, rfl⟩ | ⟨hlook, rfl⟩
      · exact hbase
      · have := @provClass_map_update_length db (sourceKey t') _ u hpres
        rw [hbase] at this
        exact List.length_eq_zero.mp (by simpa using this)
      · rw [provClass_append_single, hbase, provClass_single_new]
        have hne : sourceKey t ≠ sourceKey t' := by
          intro he
          exact hsnd.1 (he ▸ List.mem_map_of_mem sourceKey ht')
        rw [if_neg hne]
        rfl
    obtain ⟨dst', n', res', hloop, inv', hn', hprov'⟩ :=
      ih sl dst1 n1 res1 (fun t' ht' => hkeys t' (List.mem_cons_of_mem _ ht'))
        hsnd.2 inv1 hprov1 hnew1
    refine ⟨dst', n', res', ?_, inv', Nat.le_trans hn1 hn', hprov'⟩
    rw [syncLoop, hstep, hloop]

/-- One `_execute_rule` run preserves provenance uniqueness together with
the representation invariants needed to keep running rules. -/
theorem execute_rule_prov (db : String) (now : DateTime) (rule : SyncRule)
    (sl dst : List Task) (n : Nat)
    (hkeys : ∀ t ∈ sl, sourceKey t ≠ "")
    (hsnd : (sl.map sourceKey).Nodup)
    (hfresh : ∀ d ∈ dst, ∀ k, n ≤ k → d.id.value ≠ genId k)
    (hnodup : (dst.map (fun d => d.id)).Nodup)
    (hprov : ProvUnique db dst) :
    ∃ res1 dst1 n1,
      execute_rule memEnv db now rule ⟨sl, dst⟩ n = (res1, ⟨sl, dst1⟩, n1) ∧
      (∀ d ∈ dst1, ∀ k, n1 ≤ k → d.id.value ≠ genId k) ∧
      (dst1.map (fun d => d.id)).Nodup ∧ ProvUnique db dst1 ∧ n ≤ n1 := by
  have inv0 : DstInv db dst dst n := ⟨hfresh, hnodup, fun d0 h => ⟨d0, h, rfl, rfl⟩⟩
  have hnew0 : ∀ t ∈ sl, ¬HasKey db dst (sourceKey t) →
      provClass db (sourceKey t) dst = [] :=
    fun t ht hnk => provClass_eq_nil_of_not_hasKey (hkeys t ht) hnk
  obtain ⟨dst1, n1, res1, hloop, inv1, hn, hprov1⟩ :=
    syncLoop_prov db now rule dst sl sl dst n (initResult rule) hkeys hsnd inv0
      hprov hnew0
  refine ⟨res1, dst1, n1, ?_, inv1.fresh, inv1.nodup, hprov1, hn⟩
  have h1 : memEnv.listSource (⟨sl, dst⟩ : MemState) = .ok sl := rfl
  have h2 : memEnv.listDest (⟨sl, dst⟩ : MemState) = .ok dst := rfl
  simp only [execute_rule, h1, h2]
  rw [hloop]

/-- Any batch of rules preserves provenance uniqueness. -/
theorem syncRules_prov (db : String) (now : DateTime) :
    ∀ (rules : List SyncRule) (sl dst : List Task) (n : Nat),
    (∀ t ∈ sl, sourceKey t ≠ "") →
    (sl.map sourceKey).Nodup →
    (∀ d ∈ dst, ∀ k, n ≤ k → d.id.value ≠ genId k) →
    (dst.map (fun d => d.id)).Nodup →
    ProvUnique db dst →
    ∃ rs dst' n',
      syncRules memEnv db now rules ⟨sl, dst⟩ n = (rs, ⟨sl, dst'⟩, n') ∧
      ProvUnique db dst' := by
  intro rules
  induction rules with
  | nil =>
    intro sl dst n _ _ _ _ hprov
    exact ⟨[], dst, n, rfl, hprov⟩
  | cons r rest ih =>
    intro sl dst n hkeys hsnd hfresh hnodup hprov
    by_cases hr : r.enabled = true
    · obtain ⟨res1, dst1, n1, hrun, hfresh1, hnodup1, hprov1, _⟩ :=
        execute_rule_prov db now r sl dst n hkeys hsnd hfresh hnodup hprov
      obtain ⟨rs, dst', n', hrest, hprov'⟩ :=
        ih sl dst1 n1 hkeys hsnd hfresh1 hnodup1 hprov1
      refine ⟨res1 :: rs, dst', n', ?_, hprov'⟩
      rw [syncRules, if_pos hr, hrun]
      simp only
      rw [hrest]
    · have hr' : r.enabled = false := by rwa [Bool.not_eq_true] at hr
      obtain ⟨rs, dst', n', hrest, hprov'⟩ :=
        ih sl dst n hkeys hsnd hfresh hnodup hprov
      refine ⟨rs, dst', n', ?_, hprov'⟩
      rw [syncRules, if_neg (by rw [hr']; exact Bool.false_ne_true), hrest]

/-- C2: after any batch of sync runs over the in-memory stores, at most one
destination task carries a given non-empty provenance pair
`(sync_source_id, sync_source_db = db)` — in particular, at most one
destination task per source task's key, so repeated runs never create a
second destination task for the same provenance key.  Hypotheses:
non-empty and pairwise-distinct source keys (source ids and external ids
are unique in a real store), fresh generated ids, unique destination ids,
and the invariant holding before the batch. -/
theorem sync_no_duplicate_provenance (rules : List SyncRule)
    (rule_name : Option String) (db : String) (now : DateTime)
    (src dst : List Task) (n : Nat)
    (hkeys : ∀ t ∈ src, sourceKey t ≠ "")
    (hsnd : (src.map sourceKey).Nodup)
    (hfresh : ∀ d ∈ dst, ∀ k, n ≤ k → d.id.value ≠ genId k)
    (hnodup : (dst.map (fun d => d.id)).Nodup)
    (hprov : ProvUnique db dst) :
    (∀ k, k ≠ "" →
      (provClass db k ((sync memEnv db now rules rule_name ⟨src, dst⟩ n).2.1).dest).length ≤ 1) ∧
    (∀ t ∈ src,
      (provClass db (sourceKey t)
        ((sync memEnv db now rules rule_name ⟨src, dst⟩ n).2.1).dest).length ≤ 1) := by
  have main : ∀ toRun : List SyncRule,
      (∀ k, k ≠ "" →
        (provClass db k ((syncRules memEnv db now toRun ⟨src, dst⟩ n).2.1).dest).length ≤ 1) ∧
      (∀ t ∈ src,
        (provClass db (sourceKey t)
          ((syncRules memEnv db now toRun ⟨src, dst⟩ n).2.1).dest).length ≤ 1) := by
    intro toRun
    obtain ⟨rs, dst', n', heq, hprov'⟩ :=
      syncRules_prov db now toRun src dst n hkeys hsnd hfresh hnodup hprov
    rw [heq]
    exact ⟨fun k hk => hprov' k hk, fun t ht => hprov' _ (hkeys t ht)⟩
  cases rule_name with
  | none => exact main rules
  | some nm =>
    by_cases hnm : nm = ""
    · show _ ∧ _
      simp only [sync, hnm]
      simpa using main rules
    · simp only [sync, hnm]
      simpa [hnm] using main (rules.filter (fun r => r.name == nm))

/-- Witness for C2 at the spec's scenario: one rule over A, B, C and an
empty destination leaves at most one destination task with task A's
provenance key. -/
theorem sync_no_duplicate_provenance_witness :
    (provClass "team" (sourceKey taskA)
      ((sync memEnv "team" dt0 [ruleReview] none ⟨[taskA, taskB, taskC], []⟩ 0).2.1).dest).length ≤ 1 :=
  (sync_no_duplicate_provenance [ruleReview] none "team" dt0 [taskA, taskB, taskC] [] 0
    (by decide) (by decide) (by simp) (by simp)
    (fun k hk => by simp [provClass])).2 taskA (by decide)

/-- Witness for C1 at the spec's concrete scenario: after the first run
over A, B, C against an empty destination, the second run creates nothing
and updates exactly the one matching non-skipped task. -/
theorem sync_rule_idempotent_witness :
    ((execute_rule memEnv "team" dt0 ruleReview
        (execute_rule memEnv "team" dt0 ruleReview ⟨[taskA, taskB, taskC], []⟩ 0).2.1
        (execute_rule memEnv "team" dt0 ruleReview ⟨[taskA, taskB, taskC], []⟩ 0).2.2).1).created = 0 ∧
    ((execute_rule memEnv "team" dt0 ruleReview
        (execute_rule memEnv "team" dt0 ruleReview ⟨[taskA, taskB, taskC], []⟩ 0).2.1
        (execute_rule memEnv "team" dt0 ruleReview ⟨[taskA, taskB, taskC], []⟩ 0).2.2).1).updated =
      (if ruleReview.sync_updates
        then ([taskA, taskB, taskC].filter (fun t => ruleMatches ruleReview t)).length
        else 0) :=
  sync_rule_idempotent ruleReview "team" dt0 dt0 [taskA, taskB, taskC] [] 0
    (by decide) (by simp) (by simp)

end Todo
